import Mathlib

/-!
# Zoom: a tile-grid raycaster (`src/main.c`)

A shallow embedding of the ray caster, the shading pipeline, the column
scheduler and the player integrator of `main.c`, with the properties the
specification states about them.

Conventions of the embedding.

* C `double` and `float` values are elements of a linearly ordered field `K`
  with a floor function: arithmetic is exact, but for the subtraction
  `ray_angle - 0.0001` of the retry of a cast, which is rounded to binary64
  (`roundDouble`): for a large angle the difference is the angle again, and
  the cast retries at the same angle.  Every definition is generic in `K`; it
  runs on `ℚ`, and the statements that need the true sine and cosine are read
  at `K = ℝ`.
* The statements about a cast are conditional on the tiles its march samples
  or stops on, so that they do not depend on how the sums of the march are
  rounded.
* The functions of the C mathematics library (`sin`, `cos`, `sqrt`) and the
  constant `M_PI` are not part of the program; they are the fields of a
  `Libm K` record that every function using them receives.
* C `int` is `ℤ`, `unsigned int` and `uint64_t` are `ℕ`; the conversion
  `(int)` of a floating value is truncation toward zero (`toInt`).
* A loop or a recursion of the program that need not terminate receives a
  budget; running out of it is the distinct outcome `fuelOut` (`none` for the
  march loop), never a result of the program.
-/

namespace Zoom

variable {K : Type} [LinearOrderedField K] [FloorRing K]

/-! ## Configuration constants -/

/-- The macro `WIDTH`. -/
def WIDTH : ℤ := 800

/-- The macro `HEIGHT`. -/
def HEIGHT : ℤ := 600

/-- The macro `NUM_THREADS`. -/
def NUM_THREADS : ℤ := 4

/-- The constant `max_fog_distance`. -/
def max_fog_distance : K := 20

/-- The constant `min_fog_distance`. -/
def min_fog_distance : K := 2

/-- The constant `fog_color`. -/
def fog_color : ℕ := 0x87CEEB

/-- The constant `light_color`. -/
def light_color : ℕ := 0xFFFFFF

/-- The constant `player_speed`. -/
def player_speed : K := 70

/-- The constant `mouse_sensitivity`. -/
def mouse_sensitivity : K := 20

/-! ## Numeric conversions and the mathematics library -/

/-- The C conversion `(int) x` of a floating value: truncation toward zero.
(C leaves the conversion undefined when the truncated value does not fit an
`int`; the embedding keeps the mathematical value.) -/
def toInt (x : K) : ℤ := if 0 ≤ x then ⌊x⌋ else ⌈x⌉

/-- The C conversion `(unsigned char) x` of a floating value: truncation
toward zero, kept modulo 256 (the value is in `0..255` at every call where
the blend factor is in `[0, 1]`). -/
def toUChar (x : K) : ℕ := (toInt x % 256).toNat

/-- The functions of `<math.h>` the program calls, and the constant `M_PI`. -/
structure Libm (K : Type) where
  /-- The function `sin`. -/
  sin : K → K
  /-- The function `cos`. -/
  cos : K → K
  /-- The function `sqrt`. -/
  sqrt : K → K
  /-- The constant `M_PI`. -/
  M_PI : K

/-- The constant `M_PI_2`. -/
def Libm.M_PI_2 (L : Libm K) : K := L.M_PI / 2

/-! ## World grid -/

/-- The struct `Position`. -/
structure Position (K : Type) where
  x : K
  y : K
deriving DecidableEq

/-- The struct `Ray`.  The field `angle_of_incidence` is `none` when the
program leaves it unassigned (the out-of-bounds return). -/
structure Ray (K : Type) where
  depth : K
  color : ℕ
  angle_of_incidence : Option K
deriving DecidableEq

/-- The struct `World`: the tile characters in row-major order, the grid
dimensions and the world units per tile. -/
structure World (K : Type) where
  map : List Char
  map_width : ℤ
  map_height : ℤ
  scale : K

/-- The enum `Side`. -/
inductive Side where
  | SOUTH
  | NORTH
  | EAST
  | WEST
deriving DecidableEq, Repr

/-- The read `world->map[i]`.  A read outside the character array is
undefined in C; here it yields the NUL character. -/
def World.mapAt (world : World K) (i : ℤ) : Char :=
  world.map.getD i.toNat (Char.ofNat 0)

/-- The function `getRayColor`. -/
def getRayColor (symbol : Char) : ℕ :=
  if symbol = 'r' then 0xFF2222
  else if symbol = 'g' then 0x22FF22
  else if symbol = 'b' then 0x2222FF
  else 0x222222

/-- The function `getAngleOfIncidence`. -/
def getAngleOfIncidence (L : Libm K) (side : Side) (angle : K) : K :=
  match side with
  | Side.WEST => L.M_PI_2 - (angle - L.M_PI - L.M_PI_2)
  | Side.EAST => L.M_PI_2 - (angle - L.M_PI_2)
  | Side.NORTH => L.M_PI_2 - angle
  | Side.SOUTH => L.M_PI_2 - (angle - L.M_PI)

/-- The function `getSideHit`.  When no comparison holds the C function
reaches its end without a `return`; that is `none`. -/
def getSideHit (x y prev_x prev_y : ℤ) : Option Side :=
  if x > prev_x then some Side.WEST
  else if x < prev_x then some Side.EAST
  else if y > prev_y then some Side.NORTH
  else if y < prev_y then some Side.SOUTH
  else none

/-- The function `getDepth`. -/
def getDepth (L : Libm K) (player_position : Position K) (map_x map_y : ℤ)
    (delta_x delta_y scale : K) (side : Side) : K :=
  if delta_x = 0 then
    let add_height : ℤ := if delta_y < 0 then 1 else 0
    |((map_y + add_height : ℤ) : K) * scale - player_position.y|
  else if delta_y = 0 then
    let add_width : ℤ := if delta_x < 0 then 1 else 0
    |((map_x + add_width : ℤ) : K) * scale - player_position.x|
  else if side = Side.NORTH ∨ side = Side.SOUTH then
    let slope := delta_y / delta_x
    let add_height : ℤ := if side = Side.SOUTH then 1 else 0
    let y := ((map_y + add_height : ℤ) : K) * scale
    let x := y / slope + player_position.x - player_position.y / slope
    L.sqrt ((player_position.x - x) * (player_position.x - x) +
            (player_position.y - y) * (player_position.y - y))
  else
    let slope := delta_x / delta_y
    let add_width : ℤ := if side = Side.EAST then 1 else 0
    let x := ((map_x + add_width : ℤ) : K) * scale
    let y := x / slope + player_position.y - player_position.x / slope
    L.sqrt ((player_position.x - x) * (player_position.x - x) +
            (player_position.y - y) * (player_position.y - y))

/-! ## Ray casting -/

/-- How the `do ... while` loop of `worldCastRay` ends: by the out-of-bounds
`return`, or by leaving the loop on a non-empty tile with the loop variables
`map_x`, `map_y`, `prev_map_x`, `prev_map_y`, `curr`. -/
inductive MarchEnd where
  | outOfBounds
  | hit (map_x map_y prev_map_x prev_map_y : ℤ) (curr : Char)
deriving DecidableEq

/-- The `do ... while` loop of `worldCastRay`, at most `fuel` iterations,
from the loop state `march_x`, `march_y`, `map_x`, `map_y`. -/
def marchLoop (world : World K) (position : Position K) (delta_x delta_y : K) :
    ℕ → K → K → ℤ → ℤ → Option MarchEnd
  | 0, _, _, _, _ => none
  | fuel + 1, march_x, march_y, map_x, map_y =>
    let march_x := march_x + delta_x
    let march_y := march_y + delta_y
    let prev_map_x := map_x
    let prev_map_y := map_y
    let map_x := toInt ((position.x + march_x) / world.scale)
    let map_y := toInt ((position.y + march_y) / world.scale)
    if map_x < 0 ∨ map_x ≥ world.map_width ∨ map_y < 0 ∨ map_y ≥ world.map_height then
      some MarchEnd.outOfBounds
    else
      let curr := world.mapAt (map_y * world.map_width + map_x)
      if curr = ' ' ∨ curr = 'P' then
        marchLoop world position delta_x delta_y fuel march_x march_y map_x map_y
      else
        some (MarchEnd.hit map_x map_y prev_map_x prev_map_y curr)

/-- The outcome of a call of `worldCastRay`. -/
inductive Cast (K : Type) where
  /-- The call returned this ray. -/
  | done (ray : Ray K)
  /-- The call used the value of `getSideHit` where that function returns
  nothing: undefined behaviour. -/
  | undefinedSide
  /-- The march or the retry budget ran out before the call returned. -/
  | fuelOut
deriving DecidableEq

/-- Rounding to the nearest binary64 value, ties to even: the rounding of a
`double` operation.  `e` is the binary exponent of `x`, `ulp` the spacing of
the doubles between `2 ^ e` and `2 ^ (e + 1)`, `m` the 53-bit significand.
(The exponent range is unbounded: no overflow, no subnormal values.) -/
def roundDouble (x : K) : K :=
  if x = 0 then 0
  else
    let e : ℤ := Int.log 2 |x|
    let ulp : K := (2 : K) ^ (e - 52)
    let y : K := |x| / ulp
    let n : ℤ := ⌊y⌋
    let r : K := y - (n : K)
    let m : ℤ :=
      if r < 1 / 2 then n
      else if 1 / 2 < r then n + 1
      else if n % 2 = 0 then n
      else n + 1
    (if x < 0 then -1 else 1) * (m : K) * ulp

/-- The angle of the recursive call of `worldCastRay`: the `double`
`ray_angle - 0.0001`, that is the difference of `ray_angle` and the double
nearest to `1/10000`, rounded to binary64. -/
def worldCastRay.retry_angle (ray_angle : K) : K :=
  roundDouble (ray_angle - roundDouble (1 / 10000))

/-- The function `worldCastRay`.  `retries` bounds the depth of the recursive
calls (the program has no such bound), `steps` the iterations of each march
loop. -/
def worldCastRay (L : Libm K) (world : World K) (position : Position K) :
    ℕ → ℕ → K → K → Cast K
  | retries, steps, ray_angle, player_angle =>
    let map_x := toInt (position.x / world.scale)
    let map_y := toInt (position.y / world.scale)
    let detail : K := 10
    let delta_x := -L.sin ray_angle / detail
    let delta_y := L.cos ray_angle / detail
    match marchLoop world position delta_x delta_y steps 0 0 map_x map_y with
    | none => Cast.fuelOut
    | some MarchEnd.outOfBounds => Cast.done ⟨1000000, 0x000000, none⟩
    | some (MarchEnd.hit map_x map_y prev_map_x prev_map_y curr) =>
      if map_x ≠ prev_map_x ∧ map_y ≠ prev_map_y then
        match retries with
        | 0 => Cast.fuelOut
        | r + 1 =>
          worldCastRay L world position r steps (worldCastRay.retry_angle ray_angle) player_angle
      else
        match getSideHit map_x map_y prev_map_x prev_map_y with
        | none => Cast.undefinedSide
        | some side =>
          let raw_depth :=
            getDepth L position map_x map_y delta_x delta_y world.scale side / world.scale
          Cast.done
            ⟨|L.cos (player_angle - ray_angle) * raw_depth|, getRayColor curr,
              some (getAngleOfIncidence L side ray_angle)⟩

/-- The function `worldGetPlayerPosition`: the row-major scan for the first
tile `P`, and the fallback position `(-1, -1)`. -/
def worldGetPlayerPosition (world : World K) : Position K :=
  ((List.range world.map_height.toNat).findSome? fun (y : ℕ) =>
    (List.range world.map_width.toNat).findSome? fun (x : ℕ) =>
      if world.mapAt ((y : ℤ) * world.map_width + (x : ℤ)) = 'P' then
        some (⟨(x : K) * world.scale, (y : K) * world.scale⟩ : Position K)
      else none).getD ⟨-1, -1⟩

/-! ## Shading -/

/-- One 8-bit channel of `lerpColor`: the expression
`(unsigned char)((float)((color_1 >> shift) & mask) * (1 - lin_val) +
(float)((color_2 >> shift) & mask) * lin_val)`. -/
def lerpColor.channel (color_1 color_2 shift : ℕ) (lin_val : K) : ℕ :=
  let mask : ℕ := 0xFF
  toUChar ((((color_1 >>> shift) &&& mask : ℕ) : K) * (1 - lin_val) +
           (((color_2 >>> shift) &&& mask : ℕ) : K) * lin_val)

/-- The function `lerpColor`; `unsigned int` is 32 bits wide. -/
def lerpColor (color_1 color_2 : ℕ) (lin_val : K) : ℕ :=
  let newColor : ℕ := 0x000000
  let newColor := newColor ||| lerpColor.channel color_1 color_2 16 lin_val
  let newColor := (newColor <<< 8) % 2 ^ 32
  let newColor := newColor ||| lerpColor.channel color_1 color_2 8 lin_val
  let newColor := (newColor <<< 8) % 2 ^ 32
  let newColor := newColor ||| lerpColor.channel color_1 color_2 0 lin_val
  newColor

/-- The function `getFogAmount`; the cap `0.8` is the rational `4/5`. -/
def getFogAmount (depth : K) : K :=
  if depth > min_fog_distance then
    min ((depth - min_fog_distance) / (max_fog_distance - min_fog_distance)) (4 / 5)
  else 0

/-! ## Column rendering (`renderScene`) -/

/-- The local `thread_div` of `renderScene`. -/
def renderScene.thread_div : K := (WIDTH : K) / (NUM_THREADS : K)

/-- The local `thread_start` of `renderScene` for the worker `thread_num`. -/
def renderScene.thread_start (thread_num : ℤ) : ℤ :=
  toInt ((renderScene.thread_div : K) * (thread_num : K))

/-- The local `thread_end` of `renderScene` for the worker `thread_num`. -/
def renderScene.thread_end (thread_num : ℤ) : ℤ :=
  toInt ((renderScene.thread_div : K) * ((thread_num + 1 : ℤ) : K))

/-- The first assignment to `ray.color` in `renderScene`:
`lerpColor(light_color, ray.color, sqrt(sin(ray.angle_of_incidence)))`. -/
def renderScene.lit_color (L : Libm K) (color : ℕ) (angle_of_incidence : K) : ℕ :=
  lerpColor light_color color (L.sqrt (L.sin angle_of_incidence))

/-- The local `wall_height` of `renderScene`. -/
def renderScene.wall_height (depth : K) : ℤ := toInt ((HEIGHT : K) / depth)

/-- The value of `ray.color` when the row loop of `renderScene` starts: the
lit colour, blended toward `fog_color` when the fog amount is positive.  The
arguments are the three fields of the ray as `renderScene` reads them. -/
def renderScene.ray_color (L : Libm K) (depth : K) (color : ℕ) (angle_of_incidence : K) : ℕ :=
  let lit := renderScene.lit_color L color angle_of_incidence
  let fog_amount := getFogAmount depth
  if fog_amount > 0 then lerpColor lit fog_color fog_amount else lit

/-- The test of the row loop of `renderScene` that selects the wall rows:
`y > (HEIGHT - wall_height) / 2 && y < wall_height + (HEIGHT - wall_height) / 2`
with the truncating division of C. -/
def renderScene.is_wall_row (wall_height y : ℤ) : Bool :=
  decide (y > (HEIGHT - wall_height).tdiv 2) &&
    decide (y < wall_height + (HEIGHT - wall_height).tdiv 2)

/-- The local `floor_color` of `renderScene` after the fog blend, for the row
`y`.  At `y = HEIGHT / 2` the C program divides by zero and obtains an
infinite `floor_depth`, whose fog amount is the cap. -/
def renderScene.floor_color (K : Type) [LinearOrderedField K] [FloorRing K] (y : ℤ) : ℕ :=
  let denom : K := ((y : K) - (HEIGHT : K) / 2) * 2
  let floor_color : ℕ := 0x635244
  let floor_fog : K := if denom = 0 then 4 / 5 else getFogAmount ((HEIGHT : K) / denom)
  if floor_fog > 0 then lerpColor floor_color fog_color floor_fog else floor_color

/-- The three bytes a 24-bit colour leaves in `texture_data`. -/
def renderScene.bytes (color : ℕ) : ℕ × ℕ × ℕ :=
  ((color >>> 16) % 256, (color >>> 8) % 256, (color >>> 0) % 256)

/-- The body of the row loop of `renderScene`: the bytes written for the row
`y` of a column whose ray colour is `ray_color` and wall height `wall_height`. -/
def renderScene.pixel (K : Type) [LinearOrderedField K] [FloorRing K]
    (ray_color : ℕ) (wall_height y : ℤ) : ℕ × ℕ × ℕ :=
  if renderScene.is_wall_row wall_height y then renderScene.bytes ray_color
  else if y < HEIGHT.tdiv 2 then (0x87, 0xCE, 0xEB)
  else renderScene.bytes (renderScene.floor_color K y)

/-! ## Player integration (`updatePlayer`) -/

/-- The globals `player_position` and `player_angle`. -/
structure Player (K : Type) where
  player_position : Position K
  player_angle : K

/-- The key flags `keydown_w`, ..., `keydown_right`. -/
structure Keys where
  keydown_w : Bool
  keydown_a : Bool
  keydown_s : Bool
  keydown_d : Bool
  keydown_left : Bool
  keydown_right : Bool

/-- The function `updatePlayer`, on the globals it reads and writes. -/
def updatePlayer (L : Libm K) (keys : Keys) (mouse_move_x : ℤ) (delta : ℕ)
    (p : Player K) : Player K :=
  let player_angle := p.player_angle + (mouse_move_x : K) / 1000 * mouse_sensitivity
  let player_angle :=
    if keys.keydown_left ≠ keys.keydown_right then
      let change : K := if keys.keydown_left then -1 else 1
      let arrow_speed : K := 7 / 2
      player_angle + ((delta : K) / 1000) * change * arrow_speed
    else player_angle
  let mult : K := ((delta : K) / 1000) * player_speed
  let (mult, position) :=
    if keys.keydown_w ≠ keys.keydown_s then
      let mult := if keys.keydown_s then mult * -1 else mult
      let x_fraction := -L.sin player_angle
      let y_fraction := L.cos player_angle
      (mult, (⟨p.player_position.x + x_fraction * mult,
               p.player_position.y + y_fraction * mult⟩ : Position K))
    else (mult, p.player_position)
  let position :=
    if keys.keydown_a ≠ keys.keydown_d then
      let mult := if keys.keydown_s then mult * -1 else mult
      let turn_angle : K := if keys.keydown_d then L.M_PI_2 else -L.M_PI_2
      let x_fraction := -L.sin (player_angle + turn_angle)
      let y_fraction := L.cos (player_angle + turn_angle)
      (⟨position.x + x_fraction * mult, position.y + y_fraction * mult⟩ : Position K)
    else position
  ⟨position, player_angle⟩

/-! ## Vocabulary of the statements -/

/-- The contract `findStartPosition() -> Position | NotFound` of the
specification: the position of the first start marker in row-major order,
and `none` (NotFound) when the map has none. -/
def findStartPosition (world : World K) : Option (Position K) :=
  (List.range world.map_height.toNat).findSome? fun (y : ℕ) =>
    (List.range world.map_width.toNat).findSome? fun (x : ℕ) =>
      if world.mapAt ((y : ℤ) * world.map_width + (x : ℤ)) = 'P' then
        some (⟨(x : K) * world.scale, (y : K) * world.scale⟩ : Position K)
      else none

/-- The tile coordinates pass the bounds test of the march loop. -/
def World.inGrid (world : World K) (map_x map_y : ℤ) : Prop :=
  ¬ (map_x < 0 ∨ map_x ≥ world.map_width ∨ map_y < 0 ∨ map_y ≥ world.map_height)

instance (world : World K) (map_x map_y : ℤ) : Decidable (world.inGrid map_x map_y) := by
  unfold World.inGrid
  exact inferInstance

/-- The character of the tile `(map_x, map_y)`, as the march loop reads it. -/
def World.tile (world : World K) (map_x map_y : ℤ) : Char :=
  world.mapAt (map_y * world.map_width + map_x)

/-- The character lets the march loop continue: the empty tile or the start
marker. -/
def walkable (c : Char) : Prop := c = ' ' ∨ c = 'P'

instance (c : Char) : Decidable (walkable c) := by
  unfold walkable
  exact inferInstance

/-- The column of the tile sampled by the iteration `n` of the march loop
(`n = 0`: the tile of the origin). -/
def sampleX (world : World K) (position : Position K) (delta_x : K) (n : ℕ) : ℤ :=
  toInt ((position.x + (n : K) * delta_x) / world.scale)

/-- The row of the tile sampled by the iteration `n` of the march loop
(`n = 0`: the tile of the origin). -/
def sampleY (world : World K) (position : Position K) (delta_y : K) (n : ℕ) : ℤ :=
  toInt ((position.y + (n : K) * delta_y) / world.scale)

/-- The march of `worldCastRay` for the angle `ray_angle`, at most `steps`
iterations. -/
def worldCastRay.march (L : Libm K) (world : World K) (position : Position K)
    (steps : ℕ) (ray_angle : K) : Option MarchEnd :=
  marchLoop world position (-L.sin ray_angle / 10) (L.cos ray_angle / 10) steps 0 0
    (toInt (position.x / world.scale)) (toInt (position.y / world.scale))

/-- The test `(map_x != prev_map_x) && (map_y != prev_map_y)` of
`worldCastRay` holds when its march loop ends: the cast retries. -/
def worldCastRay.ambiguous (L : Libm K) (world : World K) (position : Position K)
    (steps : ℕ) (ray_angle : K) : Prop :=
  match worldCastRay.march L world position steps ray_angle with
  | some (MarchEnd.hit map_x map_y prev_map_x prev_map_y _) =>
    map_x ≠ prev_map_x ∧ map_y ≠ prev_map_y
  | _ => False

theorem toInt_of_nonneg {x : K} (h : 0 ≤ x) : toInt x = ⌊x⌋ := by
  simp [toInt, h]

theorem toInt_intCast (z : ℤ) : toInt (z : K) = z := by
  unfold toInt
  split <;> simp

theorem toInt_natCast (n : ℕ) : toInt (n : K) = n := by
  have := toInt_intCast (K := K) (n : ℤ)
  simpa using this

theorem toUChar_natCast (n : ℕ) : toUChar (n : K) = n % 256 := by
  unfold toUChar
  rw [toInt_natCast]
  omega

/-! ## Lemmas on colours -/

theorem toUChar_lt (x : K) : toUChar x < 256 := by
  unfold toUChar
  have h1 : 0 ≤ toInt x % 256 := Int.emod_nonneg _ (by norm_num)
  have h2 : toInt x % 256 < 256 := Int.emod_lt_of_pos _ (by norm_num)
  omega

theorem and_mask (x : ℕ) : x &&& 0xFF = x % 256 := by
  have := Nat.and_pow_two_sub_one_eq_mod x 8
  norm_num at this
  exact this

theorem pack_bytes {a b c : ℕ} (ha : a < 256) (hb : b < 256) (hc : c < 256) :
    ((((0 ||| a) <<< 8) % 2 ^ 32 ||| b) <<< 8) % 2 ^ 32 ||| c = a * 65536 + b * 256 + c := by
  have e1 : (0 ||| a) = a := by simp
  simp only [e1, Nat.shiftLeft_eq]
  have e2 : a * 2 ^ 8 % 2 ^ 32 = 2 ^ 8 * a := by omega
  rw [e2, ← Nat.mul_add_lt_is_or (by omega : b < 2 ^ 8)]
  have e3 : (2 ^ 8 * a + b) * 2 ^ 8 % 2 ^ 32 = 2 ^ 8 * (2 ^ 8 * a + b) := by omega
  rw [e3, ← Nat.mul_add_lt_is_or (by omega : c < 2 ^ 8)]
  omega

theorem lerpColor_eq (color_1 color_2 : ℕ) (lin_val : K) :
    lerpColor color_1 color_2 lin_val =
      lerpColor.channel color_1 color_2 16 lin_val * 65536 +
      lerpColor.channel color_1 color_2 8 lin_val * 256 +
      lerpColor.channel color_1 color_2 0 lin_val := by
  unfold lerpColor
  exact pack_bytes (toUChar_lt _) (toUChar_lt _) (toUChar_lt _)

theorem channel_zero (color_1 color_2 shift : ℕ) :
    lerpColor.channel color_1 color_2 shift (0 : K) = (color_1 >>> shift) % 256 := by
  unfold lerpColor.channel
  simp only [sub_zero, mul_one, mul_zero, add_zero]
  rw [toUChar_natCast, and_mask]
  omega

theorem channel_one (color_1 color_2 shift : ℕ) :
    lerpColor.channel color_1 color_2 shift (1 : K) = (color_2 >>> shift) % 256 := by
  unfold lerpColor.channel
  simp only [sub_self, mul_one, mul_zero, zero_add]
  rw [toUChar_natCast, and_mask]
  omega

theorem unpack_bytes (c : ℕ) :
    (c >>> 16) % 256 * 65536 + (c >>> 8) % 256 * 256 + (c >>> 0) % 256 = c % 2 ^ 24 := by
  simp only [Nat.shiftRight_eq_div_pow]
  omega

/-- At blend factor 0 `lerpColor` returns the low 24 bits of its first colour. -/
theorem lerpColor_zero (color_1 color_2 : ℕ) :
    lerpColor color_1 color_2 (0 : K) = color_1 % 2 ^ 24 := by
  rw [lerpColor_eq, channel_zero, channel_zero, channel_zero, unpack_bytes]

/-- At blend factor 1 `lerpColor` returns the low 24 bits of its second colour. -/
theorem lerpColor_one (color_1 color_2 : ℕ) :
    lerpColor color_1 color_2 (1 : K) = color_2 % 2 ^ 24 := by
  rw [lerpColor_eq, channel_one, channel_one, channel_one, unpack_bytes]

/-! ## C5: the endpoints of `lerpColor` -/

/-- C5: for all 24-bit colours `c1` and `c2`, `lerpColor c1 c2 0 = c1` and
`lerpColor c1 c2 1 = c2`. -/
theorem lerpColor_endpoints (c1 c2 : ℕ) (h1 : c1 < 2 ^ 24) (h2 : c2 < 2 ^ 24) :
    lerpColor c1 c2 (0 : K) = c1 ∧ lerpColor c1 c2 (1 : K) = c2 := by
  rw [lerpColor_zero, lerpColor_one]
  exact ⟨Nat.mod_eq_of_lt h1, Nat.mod_eq_of_lt h2⟩

/-- C5 at the fog blend of a red wall: `0xFF2222` and `0x87CEEB`. -/
theorem lerpColor_endpoints_witness :
    (0xFF2222 < 2 ^ 24 ∧ 0x87CEEB < 2 ^ 24) ∧
    lerpColor 0xFF2222 0x87CEEB (0 : ℚ) = 0xFF2222 ∧
    lerpColor 0xFF2222 0x87CEEB (1 : ℚ) = 0x87CEEB :=
  ⟨by decide, lerpColor_endpoints 0xFF2222 0x87CEEB (by decide) (by decide)⟩

/-! ## C4: the fog amount -/

section Fog

variable {F : Type} [LinearOrderedField F]

theorem getFogAmount_nonneg (d : F) : 0 ≤ getFogAmount d := by
  unfold getFogAmount min_fog_distance max_fog_distance
  split_ifs with h
  · apply le_min
    · apply div_nonneg <;> linarith
    · norm_num
  · exact le_refl _

theorem getFogAmount_mono {d1 d2 : F} (h : d1 ≤ d2) : getFogAmount d1 ≤ getFogAmount d2 := by
  by_cases h1 : d1 > min_fog_distance
  · have h2 : d2 > min_fog_distance := lt_of_lt_of_le h1 h
    unfold getFogAmount
    rw [if_pos h1, if_pos h2]
    apply min_le_min _ (le_refl _)
    unfold min_fog_distance max_fog_distance
    apply div_le_div_of_nonneg_right _ (by norm_num)
    linarith
  · have e : getFogAmount d1 = 0 := by unfold getFogAmount; rw [if_neg h1]
    rw [e]
    exact getFogAmount_nonneg d2

/-- C4: `getFogAmount` is monotonically non-decreasing, is 0 for every depth
at most `min_fog_distance = 2`, and lies in `[0, 0.8]` for every depth. -/
theorem getFogAmount_monotone_bounded :
    (∀ d1 d2 : F, d1 ≤ d2 → getFogAmount d1 ≤ getFogAmount d2) ∧
    (∀ d : F, d ≤ 2 → getFogAmount d = 0) ∧
    (∀ d : F, 0 ≤ getFogAmount d ∧ getFogAmount d ≤ 4 / 5) := by
  refine ⟨fun d1 d2 h => getFogAmount_mono h, ?_, ?_⟩
  · intro d hd
    unfold getFogAmount min_fog_distance
    rw [if_neg (not_lt.mpr hd)]
  · intro d
    refine ⟨getFogAmount_nonneg d, ?_⟩
    unfold getFogAmount
    split_ifs
    · exact min_le_right _ _
    · norm_num

end Fog

/-- C4 at the depths 1, 11 and 30: no fog, half fog, capped fog. -/
theorem getFogAmount_monotone_bounded_witness :
    ((11 : ℚ) ≤ 30 ∧ (1 : ℚ) ≤ 2) ∧
    getFogAmount (11 : ℚ) ≤ getFogAmount (30 : ℚ) ∧
    getFogAmount (1 : ℚ) = 0 ∧
    (0 ≤ getFogAmount (30 : ℚ) ∧ getFogAmount (30 : ℚ) ≤ 4 / 5) :=
  ⟨by norm_num,
   (getFogAmount_monotone_bounded (F := ℚ)).1 11 30 (by norm_num),
   (getFogAmount_monotone_bounded (F := ℚ)).2.1 1 (by norm_num),
   (getFogAmount_monotone_bounded (F := ℚ)).2.2 30⟩


/-! ## C6: the column ranges of the workers -/

theorem thread_start_eq (i : ℤ) : renderScene.thread_start (K := K) i = 200 * i := by
  unfold renderScene.thread_start renderScene.thread_div WIDTH NUM_THREADS
  have e : ((800 : ℤ) : K) / ((4 : ℤ) : K) * (i : K) = ((200 * i : ℤ) : K) := by
    push_cast; ring
  rw [e, toInt_intCast]

theorem thread_end_eq (i : ℤ) : renderScene.thread_end (K := K) i = 200 * (i + 1) := by
  unfold renderScene.thread_end renderScene.thread_div WIDTH NUM_THREADS
  have e : ((800 : ℤ) : K) / ((4 : ℤ) : K) * ((i + 1 : ℤ) : K) = ((200 * (i + 1) : ℤ) : K) := by
    push_cast; ring
  rw [e, toInt_intCast]

/-- C6: with `WIDTH = 800` and `NUM_THREADS = 4` the column ranges
`[thread_start, thread_end)` of the workers 0..3 have the same size, each ends
where the next begins, any two are disjoint, and a column belongs to one of
them exactly when it is one of `0 .. WIDTH - 1`; so every column has exactly
one worker. -/
theorem thread_ranges_partition :
    (∀ i : ℤ, 0 ≤ i → i < NUM_THREADS →
      renderScene.thread_end (K := K) i - renderScene.thread_start (K := K) i = 200) ∧
    (∀ i : ℤ, 0 ≤ i → i + 1 < NUM_THREADS →
      renderScene.thread_end (K := K) i = renderScene.thread_start (K := K) (i + 1)) ∧
    (∀ i j x : ℤ, 0 ≤ i → i < NUM_THREADS → 0 ≤ j → j < NUM_THREADS → i ≠ j →
      ¬ (renderScene.thread_start (K := K) i ≤ x ∧ x < renderScene.thread_end (K := K) i ∧
         renderScene.thread_start (K := K) j ≤ x ∧ x < renderScene.thread_end (K := K) j)) ∧
    (∀ x : ℤ, (∃ i : ℤ, 0 ≤ i ∧ i < NUM_THREADS ∧
        renderScene.thread_start (K := K) i ≤ x ∧ x < renderScene.thread_end (K := K) i) ↔
      (0 ≤ x ∧ x < WIDTH)) ∧
    (∀ x : ℤ, 0 ≤ x → x < WIDTH → ∃! i : ℤ, 0 ≤ i ∧ i < NUM_THREADS ∧
        renderScene.thread_start (K := K) i ≤ x ∧ x < renderScene.thread_end (K := K) i) := by
  simp only [thread_start_eq, thread_end_eq, NUM_THREADS, WIDTH]
  refine ⟨?_, ?_, ?_, ?_, ?_⟩
  · intro i _ _; omega
  · intro i _ _; trivial
  · intro i j x _ _ _ _ hij h; omega
  · intro x
    constructor
    · rintro ⟨i, h0, h1, h2, h3⟩; omega
    · rintro ⟨h0, h1⟩
      exact ⟨x / 200, by omega, by omega, by omega, by omega⟩
  · intro x h0 h1
    refine ⟨x / 200, ⟨by omega, by omega, by omega, by omega⟩, ?_⟩
    rintro j ⟨_, _, _, _⟩
    omega

/-- C6 at the column 417, which only the worker 2 renders, and at the ranges
of the workers 1 and 2. -/
theorem thread_ranges_partition_witness :
    ((0 : ℤ) ≤ 417 ∧ (417 : ℤ) < WIDTH ∧ (1 : ℤ) + 1 < NUM_THREADS) ∧
    renderScene.thread_end (K := ℚ) 1 - renderScene.thread_start (K := ℚ) 1 = 200 ∧
    renderScene.thread_end (K := ℚ) 1 = renderScene.thread_start (K := ℚ) (1 + 1) ∧
    (∃! i : ℤ, 0 ≤ i ∧ i < NUM_THREADS ∧
        renderScene.thread_start (K := ℚ) i ≤ 417 ∧ 417 < renderScene.thread_end (K := ℚ) i) :=
  ⟨by decide,
   (thread_ranges_partition (K := ℚ)).1 1 (by decide) (by decide),
   (thread_ranges_partition (K := ℚ)).2.1 1 (by decide) (by decide),
   (thread_ranges_partition (K := ℚ)).2.2.2.2 417 (by decide) (by decide)⟩

/-! ## C3: the wall band of a column -/

/-- The rows the row loop of `renderScene` paints with the wall colour: those
strictly below row `(HEIGHT - wh) / 2` and above row `(HEIGHT + wh) / 2`. -/
theorem is_wall_row_iff (wh y : ℤ) (h0 : 0 ≤ wh) (h1 : wh ≤ HEIGHT) :
    renderScene.is_wall_row wh y = true ↔
      (HEIGHT - wh) / 2 < y ∧ y < (HEIGHT + wh) / 2 := by
  unfold renderScene.is_wall_row
  unfold HEIGHT at *
  have e : (600 - wh).tdiv 2 = (600 - wh) / 2 :=
    Int.tdiv_eq_ediv (by omega) (by norm_num)
  rw [e]
  simp only [Bool.and_eq_true, decide_eq_true_eq, gt_iff_lt]
  omega

/-- C3, the code at wall height 100 and row 250: the row is in the band
`(HEIGHT - 100)/2 <= y < (HEIGHT + 100)/2` of the specification, and
`renderScene` paints it with the sky colour, not with the wall colour. -/
theorem wall_band_first_row_is_sky :
    ((HEIGHT - 100) / 2 ≤ 250 ∧ (250 : ℤ) < (HEIGHT + 100) / 2) ∧
    renderScene.is_wall_row 100 250 = false ∧
    renderScene.pixel ℚ 0xFF2222 100 250 = (0x87, 0xCE, 0xEB) ∧
    renderScene.pixel ℚ 0xFF2222 100 251 = (0xFF, 0x22, 0x22) := by
  refine ⟨by decide, by decide, ?_, ?_⟩
  · unfold renderScene.pixel
    rw [if_neg (by decide), if_pos (by decide)]
  · unfold renderScene.pixel
    rw [if_pos (by decide)]
    decide

/-! ## C10: the lit colour of a wall -/

/-- C10 as stated fails: at incidence angle 0 the blend factor
`sqrt (sin 0)` is 0, and the colour `renderScene` computes for the hit colour
`0xFF2222` is the light colour `0xFFFFFF`, not the hit colour that
`lerpColor (h, light_color, 0)` gives. -/
theorem lit_color_at_zero_is_light :
    Real.sqrt (Real.sin 0) = 0 ∧
    renderScene.lit_color (⟨Real.sin, Real.cos, Real.sqrt, Real.pi⟩ : Libm ℝ) 0xFF2222 0
      = 0xFFFFFF ∧
    lerpColor 0xFF2222 light_color (Real.sqrt (Real.sin 0)) = 0xFF2222 ∧
    renderScene.lit_color (⟨Real.sin, Real.cos, Real.sqrt, Real.pi⟩ : Libm ℝ) 0xFF2222 0
      ≠ lerpColor 0xFF2222 light_color (Real.sqrt (Real.sin 0)) := by
  have ht : Real.sqrt (Real.sin 0) = 0 := by simp
  have h1 : renderScene.lit_color (⟨Real.sin, Real.cos, Real.sqrt, Real.pi⟩ : Libm ℝ)
      0xFF2222 0 = 0xFFFFFF := by
    unfold renderScene.lit_color
    simp only [ht]
    rw [lerpColor_zero]
    decide
  have h2 : lerpColor 0xFF2222 light_color (Real.sqrt (Real.sin 0)) = 0xFF2222 := by
    rw [ht, lerpColor_zero]
    decide
  refine ⟨ht, h1, h2, ?_⟩
  rw [h1, h2]
  decide

/-- C10, amended: the colour `renderScene` computes before fog is
`lerpColor (light_color, h, t)` with `t = sqrt (sin angle_of_incidence)`, the
light colour blended toward the hit colour `h`: for a 24-bit `h` it is the
light colour `0xFFFFFF` at `t = 0` and `h` at `t = 1`. -/
theorem lit_color_blends_light_toward_hit (L : Libm K) (h : ℕ) (a : K) (hh : h < 2 ^ 24) :
    renderScene.lit_color L h a = lerpColor light_color h (L.sqrt (L.sin a)) ∧
    (L.sqrt (L.sin a) = 0 → renderScene.lit_color L h a = 0xFFFFFF) ∧
    (L.sqrt (L.sin a) = 1 → renderScene.lit_color L h a = h) := by
  refine ⟨rfl, ?_, ?_⟩
  · intro ht
    unfold renderScene.lit_color
    rw [ht, lerpColor_zero]
    decide
  · intro ht
    unfold renderScene.lit_color
    rw [ht, lerpColor_one]
    exact Nat.mod_eq_of_lt hh

/-- C10, amended, at a red wall hit head-on and at grazing incidence, with a
library whose `sqrt (sin a)` is `a` itself. -/
theorem lit_color_blends_light_toward_hit_witness :
    (0xFF2222 < 2 ^ 24) ∧
    renderScene.lit_color (⟨id, id, id, 3⟩ : Libm ℚ) 0xFF2222 0 = 0xFFFFFF ∧
    renderScene.lit_color (⟨id, id, id, 3⟩ : Libm ℚ) 0xFF2222 1 = 0xFF2222 :=
  ⟨by decide,
   (lit_color_blends_light_toward_hit (⟨id, id, id, 3⟩ : Libm ℚ) 0xFF2222 0 (by decide)).2.1 rfl,
   (lit_color_blends_light_toward_hit (⟨id, id, id, 3⟩ : Libm ℚ) 0xFF2222 1 (by decide)).2.2 rfl⟩

/-! ## C7: the start position of a map without start marker -/

/-- C7 as stated fails: on the 3 x 3 map whose only non-wall tile is empty the
contract of the specification yields NotFound, and `worldGetPlayerPosition`
returns the position `(-1, -1)` to its caller. -/
theorem start_missing_returns_position :
    findStartPosition
      (⟨['r', 'r', 'r', 'r', ' ', 'r', 'r', 'r', 'r'], 3, 3, 10⟩ : World ℚ) = none ∧
    worldGetPlayerPosition
      (⟨['r', 'r', 'r', 'r', ' ', 'r', 'r', 'r', 'r'], 3, 3, 10⟩ : World ℚ) = ⟨-1, -1⟩ := by
  constructor
  · rfl
  · rfl

section

variable {F : Type} [LinearOrderedField F]

/-- C7, amended: for every map that contains no start marker `P` within its
`map_width * map_height` tiles, `worldGetPlayerPosition` returns the position
`(-1, -1)`. -/
theorem start_missing_returns_minus_one (world : World F)
    (h : ∀ x y : ℤ, 0 ≤ y → y < world.map_height → 0 ≤ x → x < world.map_width →
      world.tile x y ≠ 'P') :
    worldGetPlayerPosition world = ⟨-1, -1⟩ := by
  unfold worldGetPlayerPosition
  have hnone : ((List.range world.map_height.toNat).findSome? fun (y : ℕ) =>
      (List.range world.map_width.toNat).findSome? fun (x : ℕ) =>
        if world.mapAt ((y : ℤ) * world.map_width + (x : ℤ)) = 'P' then
          some (⟨(x : F) * world.scale, (y : F) * world.scale⟩ : Position F)
        else none) = none := by
    rw [List.findSome?_eq_none_iff]
    intro y hy
    rw [List.findSome?_eq_none_iff]
    intro x hx
    rw [List.mem_range] at hx hy
    have := h x y (by omega) (by omega) (by omega) (by omega)
    unfold World.tile at this
    rw [if_neg this]
  rw [hnone]
  rfl

end

/-- C7, amended, on the 3 x 3 map whose only non-wall tile is empty. -/
theorem start_missing_returns_minus_one_witness :
    worldGetPlayerPosition
      (⟨['r', 'r', 'r', 'r', ' ', 'r', 'r', 'r', 'r'], 3, 3, 10⟩ : World ℚ) = ⟨-1, -1⟩ :=
  start_missing_returns_minus_one _ (by
    intro x y h0 h1 h2 h3
    have hx : x = 0 ∨ x = 1 ∨ x = 2 := by simp only at h3; omega
    have hy : y = 0 ∨ y = 1 ∨ y = 2 := by simp only at h1; omega
    rcases hx with rfl | rfl | rfl <;> rcases hy with rfl | rfl | rfl <;> decide)

/-! ## C9: opposing movement keys -/

section

variable {F : Type} [LinearOrderedField F]

/-- With forward and back both held and one strafe key held, `updatePlayer`
moves the player by the opposite of the strafe displacement it applies with
neither held; the angle is the same. -/
theorem updatePlayer_both_mirrors_neither (L : Libm F) (a d left right : Bool)
    (mouse_move_x : ℤ) (delta : ℕ) (p : Player F) (had : a ≠ d) :
    (updatePlayer L ⟨true, a, true, d, left, right⟩ mouse_move_x delta p).player_angle =
      (updatePlayer L ⟨false, a, false, d, left, right⟩ mouse_move_x delta p).player_angle ∧
    (updatePlayer L ⟨true, a, true, d, left, right⟩ mouse_move_x delta p).player_position.x
        - p.player_position.x =
      -((updatePlayer L ⟨false, a, false, d, left, right⟩ mouse_move_x delta p).player_position.x
        - p.player_position.x) ∧
    (updatePlayer L ⟨true, a, true, d, left, right⟩ mouse_move_x delta p).player_position.y
        - p.player_position.y =
      -((updatePlayer L ⟨false, a, false, d, left, right⟩ mouse_move_x delta p).player_position.y
        - p.player_position.y) := by
  simp only [updatePlayer, ne_eq, not_true_eq_false, if_false, if_true, had, not_false_eq_true,
    Bool.false_eq_true]
  refine ⟨?_, ?_, ?_⟩ <;> first | trivial | ring

end

/-- C9, the code at the failing input: from position `(0, 0)` and angle 0,
with one second elapsed and the strafe-left key held, `updatePlayer` moves
the player to `(-70, 0)` when forward and back are both held and to `(70, 0)`
when neither is held. -/
theorem strafe_reversed_when_forward_and_back_held :
    updatePlayer (⟨Real.sin, Real.cos, Real.sqrt, Real.pi⟩ : Libm ℝ)
        ⟨true, true, true, false, false, false⟩ 0 1000 ⟨⟨0, 0⟩, 0⟩ = ⟨⟨-70, 0⟩, 0⟩ ∧
    updatePlayer (⟨Real.sin, Real.cos, Real.sqrt, Real.pi⟩ : Libm ℝ)
        ⟨false, true, false, false, false, false⟩ 0 1000 ⟨⟨0, 0⟩, 0⟩ = ⟨⟨70, 0⟩, 0⟩ := by
  have hs : Real.sin (0 + -(Real.pi / 2)) = -1 := by
    rw [zero_add, Real.sin_neg, Real.sin_pi_div_two]
  have hc : Real.cos (0 + -(Real.pi / 2)) = 0 := by
    rw [zero_add, Real.cos_neg, Real.cos_pi_div_two]
  constructor
  · simp only [updatePlayer, Libm.M_PI_2, player_speed, mouse_sensitivity, hs, hc]
    norm_num
  · simp only [updatePlayer, Libm.M_PI_2, player_speed, mouse_sensitivity, hs, hc]
    norm_num

/-! ## The march loop -/

theorem marchLoop_succ (world : World K) (position : Position K) (dx dy : K) (fuel : ℕ)
    (march_x march_y : K) (map_x map_y : ℤ) :
    marchLoop world position dx dy (fuel + 1) march_x march_y map_x map_y =
      if world.inGrid (toInt ((position.x + (march_x + dx)) / world.scale))
          (toInt ((position.y + (march_y + dy)) / world.scale)) then
        if walkable (world.tile (toInt ((position.x + (march_x + dx)) / world.scale))
            (toInt ((position.y + (march_y + dy)) / world.scale))) then
          marchLoop world position dx dy fuel (march_x + dx) (march_y + dy)
            (toInt ((position.x + (march_x + dx)) / world.scale))
            (toInt ((position.y + (march_y + dy)) / world.scale))
        else
          some (MarchEnd.hit (toInt ((position.x + (march_x + dx)) / world.scale))
            (toInt ((position.y + (march_y + dy)) / world.scale)) map_x map_y
            (world.tile (toInt ((position.x + (march_x + dx)) / world.scale))
              (toInt ((position.y + (march_y + dy)) / world.scale))))
      else some MarchEnd.outOfBounds := by
  rw [marchLoop]
  simp only [World.inGrid, walkable, World.tile]
  split_ifs <;> rfl

/-- One iteration of the march loop from the state reached after `k`
iterations: the sampled tile is the sample `k + 1`. -/
theorem marchLoop_at (world : World K) (position : Position K) (dx dy : K) (fuel k : ℕ) :
    marchLoop world position dx dy (fuel + 1) ((k : K) * dx) ((k : K) * dy)
        (sampleX world position dx k) (sampleY world position dy k) =
      if world.inGrid (sampleX world position dx (k + 1)) (sampleY world position dy (k + 1)) then
        if walkable (world.tile (sampleX world position dx (k + 1))
            (sampleY world position dy (k + 1))) then
          marchLoop world position dx dy fuel (((k + 1 : ℕ) : K) * dx) (((k + 1 : ℕ) : K) * dy)
            (sampleX world position dx (k + 1)) (sampleY world position dy (k + 1))
        else
          some (MarchEnd.hit (sampleX world position dx (k + 1))
            (sampleY world position dy (k + 1)) (sampleX world position dx k)
            (sampleY world position dy k)
            (world.tile (sampleX world position dx (k + 1)) (sampleY world position dy (k + 1))))
      else some MarchEnd.outOfBounds := by
  rw [marchLoop_succ]
  have ex : (k : K) * dx + dx = ((k + 1 : ℕ) : K) * dx := by push_cast; ring
  have ey : (k : K) * dy + dy = ((k + 1 : ℕ) : K) * dy := by push_cast; ring
  rw [ex, ey]
  rfl

/-- While the samples `k + 1, ..., k + m` are walkable tiles of the grid, the
march loop runs through them. -/
theorem marchLoop_walk (world : World K) (position : Position K) (dx dy : K) (m : ℕ) :
    ∀ k fuel : ℕ,
      (∀ j, k < j → j ≤ k + m →
        world.inGrid (sampleX world position dx j) (sampleY world position dy j) ∧
        walkable (world.tile (sampleX world position dx j) (sampleY world position dy j))) →
      marchLoop world position dx dy (fuel + m) ((k : K) * dx) ((k : K) * dy)
          (sampleX world position dx k) (sampleY world position dy k) =
        marchLoop world position dx dy fuel (((k + m : ℕ) : K) * dx) (((k + m : ℕ) : K) * dy)
          (sampleX world position dx (k + m)) (sampleY world position dy (k + m)) := by
  induction m with
  | zero => intro k fuel _; rfl
  | succ m ih =>
    intro k fuel h
    have h1 := h (k + 1) (by omega) (by omega)
    have e : fuel + (m + 1) = (fuel + m) + 1 := by omega
    rw [e, marchLoop_at, if_pos h1.1, if_pos h1.2, ih (k + 1) fuel
      (fun j hj1 hj2 => h j (by omega) (by omega))]
    have e2 : k + 1 + m = k + (m + 1) := by omega
    rw [e2]

theorem march_start (L : Libm K) (world : World K) (position : Position K) (steps : ℕ)
    (ray_angle : K) :
    worldCastRay.march L world position steps ray_angle =
      marchLoop world position (-L.sin ray_angle / 10) (L.cos ray_angle / 10) steps
        (((0 : ℕ) : K) * (-L.sin ray_angle / 10)) (((0 : ℕ) : K) * (L.cos ray_angle / 10))
        (sampleX world position (-L.sin ray_angle / 10) 0)
        (sampleY world position (L.cos ray_angle / 10) 0) := by
  unfold worldCastRay.march sampleX sampleY
  simp only [Nat.cast_zero, zero_mul, add_zero]

/-- The march ends out of bounds at the first sample outside the grid, when
every earlier sample is a walkable tile. -/
theorem march_outOfBounds (L : Libm K) (world : World K) (position : Position K)
    (ray_angle : K) (n steps : ℕ) (hn : 1 ≤ n) (hsteps : n ≤ steps)
    (hwalk : ∀ j, 1 ≤ j → j < n →
      world.inGrid (sampleX world position (-L.sin ray_angle / 10) j)
        (sampleY world position (L.cos ray_angle / 10) j) ∧
      walkable (world.tile (sampleX world position (-L.sin ray_angle / 10) j)
        (sampleY world position (L.cos ray_angle / 10) j)))
    (hout : ¬ world.inGrid (sampleX world position (-L.sin ray_angle / 10) n)
        (sampleY world position (L.cos ray_angle / 10) n)) :
    worldCastRay.march L world position steps ray_angle = some MarchEnd.outOfBounds := by
  obtain ⟨m, rfl⟩ : ∃ m, n = m + 1 := ⟨n - 1, by omega⟩
  obtain ⟨f, rfl⟩ : ∃ f, steps = (f + 1) + m := ⟨steps - (m + 1), by omega⟩
  rw [march_start, marchLoop_walk world position _ _ m 0 (f + 1)
    (fun j h1 h2 => hwalk j (by omega) (by omega))]
  rw [marchLoop_at]
  have e : 0 + m + 1 = m + 1 := by omega
  rw [e, if_neg hout]

/-- The march ends on the first sample that is a non-walkable tile of the
grid, when every earlier sample is a walkable tile; the previous tile is the
sample before. -/
theorem march_hit (L : Libm K) (world : World K) (position : Position K)
    (ray_angle : K) (n steps : ℕ) (hn : 1 ≤ n) (hsteps : n ≤ steps)
    (hwalk : ∀ j, 1 ≤ j → j < n →
      world.inGrid (sampleX world position (-L.sin ray_angle / 10) j)
        (sampleY world position (L.cos ray_angle / 10) j) ∧
      walkable (world.tile (sampleX world position (-L.sin ray_angle / 10) j)
        (sampleY world position (L.cos ray_angle / 10) j)))
    (hin : world.inGrid (sampleX world position (-L.sin ray_angle / 10) n)
        (sampleY world position (L.cos ray_angle / 10) n))
    (hwall : ¬ walkable (world.tile (sampleX world position (-L.sin ray_angle / 10) n)
        (sampleY world position (L.cos ray_angle / 10) n))) :
    worldCastRay.march L world position steps ray_angle =
      some (MarchEnd.hit (sampleX world position (-L.sin ray_angle / 10) n)
        (sampleY world position (L.cos ray_angle / 10) n)
        (sampleX world position (-L.sin ray_angle / 10) (n - 1))
        (sampleY world position (L.cos ray_angle / 10) (n - 1))
        (world.tile (sampleX world position (-L.sin ray_angle / 10) n)
          (sampleY world position (L.cos ray_angle / 10) n))) := by
  obtain ⟨m, rfl⟩ : ∃ m, n = m + 1 := ⟨n - 1, by omega⟩
  obtain ⟨f, rfl⟩ : ∃ f, steps = (f + 1) + m := ⟨steps - (m + 1), by omega⟩
  rw [march_start, marchLoop_walk world position _ _ m 0 (f + 1)
    (fun j h1 h2 => hwalk j (by omega) (by omega))]
  rw [marchLoop_at]
  have e : 0 + m + 1 = m + 1 := by omega
  have e2 : m + 1 - 1 = 0 + m := by omega
  rw [e, if_pos hin, if_neg hwall, e2]

/-! ## The cast, by the end of its march -/

theorem worldCastRay_of_outOfBounds (L : Libm K) (world : World K) (position : Position K)
    (retries steps : ℕ) (ray_angle player_angle : K)
    (h : worldCastRay.march L world position steps ray_angle = some MarchEnd.outOfBounds) :
    worldCastRay L world position retries steps ray_angle player_angle =
      Cast.done ⟨1000000, 0x000000, none⟩ := by
  unfold worldCastRay.march at h
  rw [worldCastRay.eq_def]
  simp only [h]

theorem worldCastRay_of_none (L : Libm K) (world : World K) (position : Position K)
    (retries steps : ℕ) (ray_angle player_angle : K)
    (h : worldCastRay.march L world position steps ray_angle = none) :
    worldCastRay L world position retries steps ray_angle player_angle = Cast.fuelOut := by
  unfold worldCastRay.march at h
  rw [worldCastRay.eq_def]
  simp only [h]

theorem worldCastRay_of_hit (L : Libm K) (world : World K) (position : Position K)
    (retries steps : ℕ) (ray_angle player_angle : K) (mx my px py : ℤ) (c : Char) (side : Side)
    (h : worldCastRay.march L world position steps ray_angle =
      some (MarchEnd.hit mx my px py c))
    (hone : ¬ (mx ≠ px ∧ my ≠ py)) (hside : getSideHit mx my px py = some side) :
    worldCastRay L world position retries steps ray_angle player_angle =
      Cast.done
        ⟨|L.cos (player_angle - ray_angle) *
            (getDepth L position mx my (-L.sin ray_angle / 10) (L.cos ray_angle / 10)
              world.scale side / world.scale)|,
          getRayColor c, some (getAngleOfIncidence L side ray_angle)⟩ := by
  unfold worldCastRay.march at h
  rw [worldCastRay.eq_def]
  simp only [h, hone, if_false, hside]

theorem worldCastRay_of_ambiguous_succ (L : Libm K) (world : World K) (position : Position K)
    (retries steps : ℕ) (ray_angle player_angle : K)
    (h : worldCastRay.ambiguous L world position steps ray_angle) :
    worldCastRay L world position (retries + 1) steps ray_angle player_angle =
      worldCastRay L world position retries steps (worldCastRay.retry_angle ray_angle)
        player_angle := by
  unfold worldCastRay.ambiguous at h
  rw [worldCastRay.eq_def]
  unfold worldCastRay.march at h
  split at h
  · rename_i mx my px py c hm
    simp only [hm]
    rw [if_pos h]
  · exact absurd h id

theorem worldCastRay_of_ambiguous_zero (L : Libm K) (world : World K) (position : Position K)
    (steps : ℕ) (ray_angle player_angle : K)
    (h : worldCastRay.ambiguous L world position steps ray_angle) :
    worldCastRay L world position 0 steps ray_angle player_angle = Cast.fuelOut := by
  unfold worldCastRay.ambiguous at h
  rw [worldCastRay.eq_def]
  unfold worldCastRay.march at h
  split at h
  · rename_i mx my px py c hm
    simp only [hm]
    rw [if_pos h]
  · exact absurd h id

/-! ## C1: the out-of-bounds sentinel -/

/-- C1: for every world, origin (in the grid or outside it) and ray, if the
march leaves the grid at its iteration `n` and every earlier iteration sampled
a walkable tile of the grid, `worldCastRay` returns, within `n` iterations and
whatever the retry budget, the sentinel of depth 1000000 and colour
0x000000. -/
theorem worldCastRay_outOfBounds_sentinel (L : Libm K) (world : World K)
    (position : Position K) (ray_angle player_angle : K) (n retries steps : ℕ)
    (hn : 1 ≤ n) (hsteps : n ≤ steps)
    (hwalk : ∀ j, 1 ≤ j → j < n →
      world.inGrid (sampleX world position (-L.sin ray_angle / 10) j)
        (sampleY world position (L.cos ray_angle / 10) j) ∧
      walkable (world.tile (sampleX world position (-L.sin ray_angle / 10) j)
        (sampleY world position (L.cos ray_angle / 10) j)))
    (hout : ¬ world.inGrid (sampleX world position (-L.sin ray_angle / 10) n)
        (sampleY world position (L.cos ray_angle / 10) n)) :
    worldCastRay L world position retries steps ray_angle player_angle =
      Cast.done ⟨1000000, 0x000000, none⟩ :=
  worldCastRay_of_outOfBounds L world position retries steps ray_angle player_angle
    (march_outOfBounds L world position ray_angle n steps hn hsteps hwalk hout)

/-- The value of `toInt` from bounds on its argument. -/
theorem toInt_eq {x : K} {z : ℤ}
    (h : (0 ≤ x ∧ (z : K) ≤ x ∧ x < z + 1) ∨ (x < 0 ∧ (z : K) - 1 < x ∧ x ≤ z)) :
    toInt x = z := by
  unfold toInt
  rcases h with ⟨h0, h1, h2⟩ | ⟨h0, h1, h2⟩
  · rw [if_pos h0, Int.floor_eq_iff]
    exact ⟨h1, h2⟩
  · rw [if_neg (not_le.mpr h0), Int.ceil_eq_iff]
    exact ⟨h1, h2⟩

/-- C1 on a corridor of two empty tiles of size 1/10, from an origin below
the grid, marching upward: the samples 1 to 3 are tiles of the corridor, the
sample 4 is above it. -/
theorem worldCastRay_outOfBounds_sentinel_witness :
    ¬ (⟨[' ', ' '], 1, 2, 1 / 10⟩ : World ℚ).inGrid
        (toInt ((1 / 20 : ℚ) / (1 / 10))) (toInt ((-3 / 20 : ℚ) / (1 / 10))) ∧
    worldCastRay (⟨fun a => a - a ^ 3 / 6, fun a => 1 - a ^ 2 / 2, fun a => a, 22 / 7⟩ : Libm ℚ)
        ⟨[' ', ' '], 1, 2, 1 / 10⟩ ⟨1 / 20, -3 / 20⟩ 0 4 0 0 =
      Cast.done ⟨1000000, 0x000000, none⟩ := by
  have hx : ∀ j : ℕ, sampleX (⟨[' ', ' '], 1, 2, 1 / 10⟩ : World ℚ) ⟨1 / 20, -3 / 20⟩
      (-(0 - (0 : ℚ) ^ 3 / 6) / 10) j = 0 := by
    intro j
    unfold sampleX
    apply toInt_eq
    left
    norm_num
  have hy : ∀ (j : ℕ) (z : ℤ), ((z : ℚ) ≤ -3 / 2 + j ∧ (-3 / 2 + j : ℚ) < z + 1 ∧ 2 ≤ j) →
      sampleY (⟨[' ', ' '], 1, 2, 1 / 10⟩ : World ℚ) ⟨1 / 20, -3 / 20⟩
        ((1 - (0 : ℚ) ^ 2 / 2) / 10) j = z := by
    intro j z ⟨h1, h2, h3⟩
    unfold sampleY
    apply toInt_eq
    left
    have hj : (2 : ℚ) ≤ j := by exact_mod_cast h3
    have e : ((-3 / 20 : ℚ) + (j : ℚ) * ((1 - (0 : ℚ) ^ 2 / 2) / 10)) / (1 / 10) = -3 / 2 + j := by
      field_simp; ring
    simp only [e]
    exact ⟨by linarith, h1, h2⟩
  have hy1 : sampleY (⟨[' ', ' '], 1, 2, 1 / 10⟩ : World ℚ) ⟨1 / 20, -3 / 20⟩
      ((1 - (0 : ℚ) ^ 2 / 2) / 10) 1 = 0 := by
    unfold sampleY
    apply toInt_eq
    right
    norm_num
  refine ⟨?_, ?_⟩
  · have e1 : toInt ((1 / 20 : ℚ) / (1 / 10)) = 0 := toInt_eq (Or.inl (by norm_num))
    have e2 : toInt ((-3 / 20 : ℚ) / (1 / 10)) = -1 := toInt_eq (Or.inr (by norm_num))
    rw [e1, e2]
    decide
  · refine worldCastRay_outOfBounds_sentinel _ _ _ 0 0 4 0 4 (by decide) (by decide) ?_ ?_
    · intro j h1 h2
      simp only [hx]
      have hj : j = 1 ∨ j = 2 ∨ j = 3 := by omega
      rcases hj with rfl | rfl | rfl
      · rw [hy1]; decide
      · rw [hy 2 0 (by norm_num)]; decide
      · rw [hy 3 1 (by norm_num)]; decide
    · simp only [hx]
      rw [hy 4 2 (by norm_num)]
      decide

/-! ## Marching along an axis, in exact arithmetic -/

theorem int_log_two_eq {x : K} {e : ℤ} (hx : 0 < x) (h1 : (2 : K) ^ e ≤ x)
    (h2 : x < (2 : K) ^ (e + 1)) : Int.log 2 x = e := by
  have a1 : e ≤ Int.log 2 x := by
    rw [← Int.zpow_le_iff_le_log (by norm_num) hx]
    simpa using h1
  have a2 : Int.log 2 x < e + 1 := by
    rw [← Int.lt_zpow_iff_log_lt (by norm_num) hx]
    simpa using h2
  omega

/-- The significand chosen by `roundDouble`, for a positive `x` in the binade
of exponent `e`. -/
theorem roundDouble_of_pos {x : K} {e : ℤ} (hx : 0 < x) (h1 : (2 : K) ^ e ≤ x)
    (h2 : x < (2 : K) ^ (e + 1)) :
    roundDouble x =
      ((if x / (2 : K) ^ (e - 52) - (⌊x / (2 : K) ^ (e - 52)⌋ : K) < 1 / 2 then
          ⌊x / (2 : K) ^ (e - 52)⌋
        else if 1 / 2 < x / (2 : K) ^ (e - 52) - (⌊x / (2 : K) ^ (e - 52)⌋ : K) then
          ⌊x / (2 : K) ^ (e - 52)⌋ + 1
        else if ⌊x / (2 : K) ^ (e - 52)⌋ % 2 = 0 then ⌊x / (2 : K) ^ (e - 52)⌋
        else ⌊x / (2 : K) ^ (e - 52)⌋ + 1 : ℤ) : K) * (2 : K) ^ (e - 52) := by
  unfold roundDouble
  rw [if_neg (ne_of_gt hx), abs_of_pos hx, int_log_two_eq hx h1 h2]
  simp only [if_neg (not_lt.mpr (le_of_lt hx)), one_mul]

/-- A positive `x` within half a unit in the last place of the double
`n * 2 ^ (e - 52)` rounds to it. -/
theorem roundDouble_eq_of_near {x : K} {e n : ℤ} (hx : 0 < x) (h1 : (2 : K) ^ e ≤ x)
    (h2 : x < (2 : K) ^ (e + 1)) (hn : |x / (2 : K) ^ (e - 52) - (n : K)| < 1 / 2) :
    roundDouble x = (n : K) * (2 : K) ^ (e - 52) := by
  rw [roundDouble_of_pos hx h1 h2]
  congr 2
  obtain ⟨hlo, hhi⟩ := abs_lt.mp hn
  rcases le_or_lt (n : K) (x / (2 : K) ^ (e - 52)) with hle | hlt
  · have hf : ⌊x / (2 : K) ^ (e - 52)⌋ = n := by
      rw [Int.floor_eq_iff]
      exact ⟨hle, by linarith⟩
    rw [hf, if_pos (by linarith)]
  · have hf : ⌊x / (2 : K) ^ (e - 52)⌋ = n - 1 := by
      rw [Int.floor_eq_iff]
      push_cast
      exact ⟨by linarith, by linarith⟩
    rw [hf]
    have hr : ¬ (x / (2 : K) ^ (e - 52) - ((n - 1 : ℤ) : K) < 1 / 2) := by
      push_cast
      linarith
    have hr2 : 1 / 2 < x / (2 : K) ^ (e - 52) - ((n - 1 : ℤ) : K) := by
      push_cast
      linarith
    rw [if_neg hr, if_pos hr2]
    ring

theorem roundDouble_neg (x : K) : roundDouble (-x) = -roundDouble x := by
  unfold roundDouble
  rcases lt_trichotomy x 0 with h | h | h
  · have h1 : -x ≠ 0 := by intro h'; linarith [neg_eq_zero.mp h']
    have h2 : ¬ (-x < 0) := by linarith
    rw [if_neg h1, if_neg (ne_of_lt h), abs_neg]
    simp only [h2, h, if_true, if_false]
    ring
  · subst h; simp
  · have h1 : -x ≠ 0 := by intro h'; linarith [neg_eq_zero.mp h']
    have h2 : -x < 0 := by linarith
    have h3 : ¬ (x < 0) := by linarith
    rw [if_neg h1, if_neg (ne_of_gt h), abs_neg]
    simp only [h2, h3, if_true, if_false]
    ring

/-- Rounding keeps a positive `x` in its binade. -/
theorem roundDouble_binade {x : K} {e : ℤ} (hx : 0 < x) (h1 : (2 : K) ^ e ≤ x)
    (h2 : x < (2 : K) ^ (e + 1)) :
    (2 : K) ^ e ≤ roundDouble x ∧ roundDouble x ≤ (2 : K) ^ (e + 1) := by
  rw [roundDouble_of_pos hx h1 h2]
  have hu : (0 : K) < (2 : K) ^ (e - 52) := zpow_pos (by norm_num) _
  have e1 : (2 : K) ^ e = ((2 ^ 52 : ℤ) : K) * (2 : K) ^ (e - 52) := by
    have hp : ((2 ^ 52 : ℤ) : K) = (2 : K) ^ (52 : ℤ) := by
      rw [zpow_ofNat]
      norm_cast
    rw [hp, ← zpow_add₀ (by norm_num : (2 : K) ≠ 0)]
    congr 1
    omega
  have e2 : (2 : K) ^ (e + 1) = ((2 ^ 53 : ℤ) : K) * (2 : K) ^ (e - 52) := by
    have hp : ((2 ^ 53 : ℤ) : K) = (2 : K) ^ (53 : ℤ) := by
      rw [zpow_ofNat]
      norm_cast
    rw [hp, ← zpow_add₀ (by norm_num : (2 : K) ≠ 0)]
    congr 1
    omega
  have hy1 : ((2 ^ 52 : ℤ) : K) ≤ x / (2 : K) ^ (e - 52) := by
    rw [le_div_iff₀ hu, ← e1]
    exact h1
  have hy2 : x / (2 : K) ^ (e - 52) < ((2 ^ 53 : ℤ) : K) := by
    rw [div_lt_iff₀ hu, ← e2]
    exact h2
  have hf1 : (2 ^ 52 : ℤ) ≤ ⌊x / (2 : K) ^ (e - 52)⌋ := Int.le_floor.mpr hy1
  have hf2 : ⌊x / (2 : K) ^ (e - 52)⌋ < (2 ^ 53 : ℤ) := Int.floor_lt.mpr hy2
  rw [e1, e2]
  constructor
  · apply mul_le_mul_of_nonneg_right _ (le_of_lt hu)
    split_ifs <;> exact_mod_cast (by omega)
  · apply mul_le_mul_of_nonneg_right _ (le_of_lt hu)
    split_ifs <;> exact_mod_cast (by omega)

/-! ## The retries of an ambiguous cast -/

/-- While the casts at the successive retried angles end ambiguous,
`worldCastRay` spends one retry on each of them. -/
theorem retry_chain (L : Libm K) (world : World K) (position : Position K) (steps : ℕ)
    (φ : K) (n : ℕ) :
    ∀ (r : ℕ) (θ : K),
      (∀ j : ℕ, j < n →
        worldCastRay.ambiguous L world position steps (worldCastRay.retry_angle^[j] θ)) →
      worldCastRay L world position (r + n) steps θ φ =
        worldCastRay L world position r steps (worldCastRay.retry_angle^[n] θ) φ := by
  induction n with
  | zero =>
    intro r θ _
    rfl
  | succ n ih =>
    intro r θ h
    have h0 := h 0 (by omega)
    rw [Function.iterate_zero, id_eq] at h0
    have e : r + (n + 1) = (r + n) + 1 := by omega
    rw [e, worldCastRay_of_ambiguous_succ L world position (r + n) steps θ φ h0]
    rw [ih r (worldCastRay.retry_angle θ) (by
      intro j hj
      have := h (j + 1) (by omega)
      rwa [Function.iterate_succ_apply] at this)]
    rw [Function.iterate_succ_apply]

/-- A cast whose march ends, and not ambiguous, returns without a retry. -/
theorem worldCastRay_resolved (L : Libm K) (world : World K) (position : Position K)
    (retries steps : ℕ) (θ φ : K)
    (hres : ¬ worldCastRay.ambiguous L world position steps θ)
    (hend : worldCastRay.march L world position steps θ ≠ none) :
    worldCastRay L world position retries steps θ φ =
      worldCastRay L world position 0 steps θ φ ∧
    worldCastRay L world position retries steps θ φ ≠ Cast.fuelOut := by
  unfold worldCastRay.ambiguous at hres
  unfold worldCastRay.march at hres hend
  rw [worldCastRay.eq_def, worldCastRay.eq_def L world position 0]
  simp only
  cases hm : marchLoop world position (-L.sin θ / 10) (L.cos θ / 10) steps 0 0
      (toInt (position.x / world.scale)) (toInt (position.y / world.scale)) with
  | none => exact absurd hm hend
  | some e =>
    cases e with
    | outOfBounds => simp
    | hit mx my px py c =>
      rw [hm] at hres
      simp only at hres
      simp only [if_neg hres]
      refine ⟨trivial, ?_⟩
      cases getSideHit mx my px py <;> simp

/-- An ambiguous cast at an angle that absorbs the perturbation (the double
`ray_angle - 0.0001` is `ray_angle` again) exhausts every retry budget. -/
theorem worldCastRay_absorbed (L : Libm K) (world : World K) (position : Position K)
    (steps : ℕ) (θ φ : K) (hamb : worldCastRay.ambiguous L world position steps θ)
    (habs : worldCastRay.retry_angle θ = θ) :
    ∀ retries : ℕ, worldCastRay L world position retries steps θ φ = Cast.fuelOut := by
  intro retries
  induction retries with
  | zero => exact worldCastRay_of_ambiguous_zero L world position steps θ φ hamb
  | succ r ih =>
    rw [worldCastRay_of_ambiguous_succ L world position r steps θ φ hamb, habs]
    exact ih

/-! ## The angle `10 ^ 13` -/

/-- The literal `0.0001`: the double nearest to `1/10000`. -/
theorem roundDouble_literal :
    roundDouble (1 / 10000 : K) = 7378697629483821 / 73786976294838206464 := by
  have hz : (2 : K) ^ ((-14 : ℤ) - 52) = 1 / 73786976294838206464 := by
    have : ((-14 : ℤ) - 52) = -66 := by norm_num
    rw [this, zpow_neg, zpow_ofNat]
    norm_num
  have h14 : (2 : K) ^ (-14 : ℤ) = 1 / 16384 := by
    rw [zpow_neg, zpow_ofNat]; norm_num
  have h13 : (2 : K) ^ ((-14 : ℤ) + 1) = 1 / 8192 := by
    have : ((-14 : ℤ) + 1) = -13 := by norm_num
    rw [this, zpow_neg, zpow_ofNat]; norm_num
  rw [roundDouble_eq_of_near (e := -14) (n := 7378697629483821) (by norm_num)
    (by rw [h14]; norm_num) (by rw [h13]; norm_num)
    (by
      rw [hz, abs_lt]
      constructor <;> norm_num)]
  rw [hz]
  norm_num

/-- The double `10 ^ 13 - 0.0001` is `10 ^ 13`: the doubles near `10 ^ 13`
are `2 ^ (-9)` apart, more than twice the perturbation. -/
theorem retry_angle_big : worldCastRay.retry_angle ((10 : K) ^ 13) = (10 : K) ^ 13 := by
  unfold worldCastRay.retry_angle
  rw [roundDouble_literal]
  have hz : (2 : K) ^ ((43 : ℤ) - 52) = 1 / 512 := by
    have : ((43 : ℤ) - 52) = -9 := by norm_num
    rw [this, zpow_neg, zpow_ofNat]
    norm_num
  have h43 : (2 : K) ^ (43 : ℤ) = 8796093022208 := by
    rw [zpow_ofNat]; norm_num
  have h44 : (2 : K) ^ ((43 : ℤ) + 1) = 17592186044416 := by
    have : ((43 : ℤ) + 1) = 44 := by norm_num
    rw [this, zpow_ofNat]; norm_num
  rw [roundDouble_eq_of_near (e := 43) (n := 5120000000000000) (by norm_num)
    (by rw [h43]; norm_num) (by rw [h44]; norm_num)
    (by
      rw [hz, abs_lt]
      constructor <;> norm_num)]
  rw [hz]
  norm_num

/-- The true sine and cosine at `10 ^ 13`, which is `-0.29306...` modulo
`2 * pi`. -/
theorem trig_big :
    Real.sin (10 ^ 13) < -27 / 100 ∧ -1 ≤ Real.sin (10 ^ 13) ∧
    19 / 20 ≤ Real.cos (10 ^ 13) ∧ Real.cos (10 ^ 13) ≤ 1 := by
  have hlo := Real.pi_gt_d20
  have hhi := Real.pi_lt_d20
  have e : (10 : ℝ) ^ 13 =
      -(3183098861838 * Real.pi - 10 ^ 13) + ((1591549430919 : ℤ) : ℝ) * (2 * Real.pi) := by
    push_cast
    ring
  have hx0 : (28 / 100 : ℝ) ≤ 3183098861838 * Real.pi - 10 ^ 13 := by
    norm_num at hlo ⊢
    linarith
  have hx1 : 3183098861838 * Real.pi - 10 ^ 13 ≤ (3 / 10 : ℝ) := by
    norm_num at hhi ⊢
    linarith
  have hsin : Real.sin (10 ^ 13) = -Real.sin (3183098861838 * Real.pi - 10 ^ 13) := by
    conv_lhs => rw [e]
    rw [Real.sin_add_int_mul_two_pi, Real.sin_neg]
  have hcos : Real.cos (10 ^ 13) = Real.cos (3183098861838 * Real.pi - 10 ^ 13) := by
    conv_lhs => rw [e]
    rw [Real.cos_add_int_mul_two_pi, Real.cos_neg]
  have hs := Real.sin_gt_sub_cube (x := 3183098861838 * Real.pi - 10 ^ 13) (by linarith)
    (by linarith)
  have hc := Real.one_sub_sq_div_two_le_cos (x := 3183098861838 * Real.pi - 10 ^ 13)
  have hcube : (3183098861838 * Real.pi - 10 ^ 13) ^ 3 ≤ (3 / 10 : ℝ) ^ 3 :=
    pow_le_pow_left₀ (by linarith) hx1 3
  have hsq : (3183098861838 * Real.pi - 10 ^ 13) ^ 2 ≤ (3 / 10 : ℝ) ^ 2 :=
    pow_le_pow_left₀ (by linarith) hx1 2
  refine ⟨?_, Real.neg_one_le_sin _, ?_, Real.cos_le_one _⟩
  · rw [hsin]
    norm_num at hcube
    linarith
  · rw [hcos]
    norm_num at hsq
    linarith

/-- At the angle `10 ^ 13`, in the 2 x 2 world whose only walkable tile is
`(0, 0)`, from the origin `(63/64, 31/32)` on that tile, the first sub-step
lands on the wall `(1, 1)`: the cast is ambiguous. -/
theorem march_big (steps : ℕ) (hsteps : 1 ≤ steps) :
    worldCastRay.march (⟨Real.sin, Real.cos, Real.sqrt, Real.pi⟩ : Libm ℝ)
      ⟨[' ', 'r', 'r', 'r'], 2, 2, 1⟩ ⟨63 / 64, 31 / 32⟩ steps (10 ^ 13) =
      some (MarchEnd.hit 1 1 0 0 'r') := by
  obtain ⟨hs1, hs2, hc1, hc2⟩ := trig_big
  have hx1 : sampleX (⟨[' ', 'r', 'r', 'r'], 2, 2, 1⟩ : World ℝ) ⟨63 / 64, 31 / 32⟩
      (-Real.sin (10 ^ 13) / 10) 1 = 1 := by
    unfold sampleX
    apply toInt_eq
    left
    simp only [Nat.cast_one, one_mul, div_one, Int.cast_one]
    generalize Real.sin (10 ^ 13) = s at hs1 hs2 ⊢
    refine ⟨by linarith, by linarith, by linarith⟩
  have hy1 : sampleY (⟨[' ', 'r', 'r', 'r'], 2, 2, 1⟩ : World ℝ) ⟨63 / 64, 31 / 32⟩
      (Real.cos (10 ^ 13) / 10) 1 = 1 := by
    unfold sampleY
    apply toInt_eq
    left
    simp only [Nat.cast_one, one_mul, div_one, Int.cast_one]
    generalize Real.cos (10 ^ 13) = c at hc1 hc2 ⊢
    refine ⟨by linarith, by linarith, by linarith⟩
  have hx0 : sampleX (⟨[' ', 'r', 'r', 'r'], 2, 2, 1⟩ : World ℝ) ⟨63 / 64, 31 / 32⟩
      (-Real.sin (10 ^ 13) / 10) 0 = 0 := by
    unfold sampleX
    exact toInt_eq (Or.inl (by norm_num))
  have hy0 : sampleY (⟨[' ', 'r', 'r', 'r'], 2, 2, 1⟩ : World ℝ) ⟨63 / 64, 31 / 32⟩
      (Real.cos (10 ^ 13) / 10) 0 = 0 := by
    unfold sampleY
    exact toInt_eq (Or.inl (by norm_num))
  have h := march_hit (⟨Real.sin, Real.cos, Real.sqrt, Real.pi⟩ : Libm ℝ)
    ⟨[' ', 'r', 'r', 'r'], 2, 2, 1⟩ ⟨63 / 64, 31 / 32⟩ (10 ^ 13) 1 steps (le_refl 1) hsteps
    (by intro j h1 h2; omega)
    (by simp only [hx1, hy1]; decide)
    (by simp only [hx1, hy1]; decide)
  simp only [hx1, hy1, Nat.sub_self, hx0, hy0] at h
  rw [h]
  rfl

/-! ## C8: the retry has no bound -/

/-- C8 as stated fails: at the ray angle `10 ^ 13` the double
`ray_angle - 0.0001` is `ray_angle` again.  In the 2 x 2 world of scale 1
whose only walkable tile is `(0, 0)`, from the origin `(63/64, 31/32)` on that
tile, the first sub-step of the cast lands on the wall `(1, 1)`, both
coordinates change, and the cast retries at the same angle: it exhausts every
retry budget, whatever the number of march iterations allowed. -/
theorem retry_never_returns :
    worldCastRay.retry_angle ((10 : ℝ) ^ 13) = 10 ^ 13 ∧
    (∀ steps : ℕ, 1 ≤ steps →
      worldCastRay.march (⟨Real.sin, Real.cos, Real.sqrt, Real.pi⟩ : Libm ℝ)
        ⟨[' ', 'r', 'r', 'r'], 2, 2, 1⟩ ⟨63 / 64, 31 / 32⟩ steps (10 ^ 13) =
        some (MarchEnd.hit 1 1 0 0 'r')) ∧
    (∀ retries steps : ℕ,
      worldCastRay (⟨Real.sin, Real.cos, Real.sqrt, Real.pi⟩ : Libm ℝ)
        ⟨[' ', 'r', 'r', 'r'], 2, 2, 1⟩ ⟨63 / 64, 31 / 32⟩ retries steps (10 ^ 13) (10 ^ 13) =
        Cast.fuelOut) := by
  refine ⟨retry_angle_big, march_big, ?_⟩
  intro retries steps
  rcases Nat.eq_zero_or_pos steps with h0 | hpos
  · subst h0
    exact worldCastRay_of_none _ _ _ retries 0 _ _ rfl
  · apply worldCastRay_absorbed _ _ _ steps _ _ _ retry_angle_big
    unfold worldCastRay.ambiguous
    rw [march_big steps hpos]
    decide

/-- C8, amended: `worldCastRay` has no bound on its retries and need not
return.  An ambiguous cast restarts at the double `ray_angle - 0.0001`.  If
the casts at the first `n` of the successive retried angles all end ambiguous
and the march at the next one ends out of bounds or on a tile that differs
from the previous one in at most one coordinate, then with a retry budget of
at least `n` the call returns what the cast at that angle returns, and with a
smaller budget it does not return.  If a cast is ambiguous at an angle that
absorbs the perturbation, no retry budget lets the call return. -/
theorem worldCastRay_returns_when_resolved (L : Libm K) (world : World K)
    (position : Position K) (steps n retries : ℕ) (θ φ : K) :
    ((∀ j : ℕ, j < n →
        worldCastRay.ambiguous L world position steps (worldCastRay.retry_angle^[j] θ)) →
      ¬ worldCastRay.ambiguous L world position steps (worldCastRay.retry_angle^[n] θ) →
      worldCastRay.march L world position steps (worldCastRay.retry_angle^[n] θ) ≠ none →
      (n ≤ retries →
        worldCastRay L world position retries steps θ φ =
          worldCastRay L world position 0 steps (worldCastRay.retry_angle^[n] θ) φ ∧
        worldCastRay L world position retries steps θ φ ≠ Cast.fuelOut) ∧
      (retries < n → worldCastRay L world position retries steps θ φ = Cast.fuelOut)) ∧
    (worldCastRay.ambiguous L world position steps θ →
      worldCastRay.retry_angle θ = θ →
      ∀ budget : ℕ, worldCastRay L world position budget steps θ φ = Cast.fuelOut) := by
  refine ⟨fun hamb hres hend => ⟨?_, ?_⟩, fun hamb habs =>
    worldCastRay_absorbed L world position steps θ φ hamb habs⟩
  · intro hle
    obtain ⟨r, rfl⟩ : ∃ r, retries = r + n := ⟨retries - n, by omega⟩
    rw [retry_chain L world position steps φ n r θ hamb]
    exact worldCastRay_resolved L world position r steps _ φ hres hend
  · intro hlt
    have h := retry_chain L world position steps φ retries 0 θ
      (fun j hj => hamb j (by omega))
    rw [Nat.zero_add] at h
    rw [h]
    exact worldCastRay_of_ambiguous_zero L world position steps _ φ (hamb retries hlt)

/-! ## The angle `2 ^ (-14)` and its retry -/

/-- The double `2 ^ (-14) - 0.0001` lies between `-2 ^ (-14)` and
`-2 ^ (-15)`. -/
theorem retry_angle_small :
    -(1 / 16384 : ℝ) ≤ worldCastRay.retry_angle (1 / 16384 : ℝ) ∧
    worldCastRay.retry_angle (1 / 16384 : ℝ) ≤ -(1 / 32768) := by
  unfold worldCastRay.retry_angle
  rw [roundDouble_literal]
  have e : (1 / 16384 : ℝ) - 7378697629483821 / 73786976294838206464 =
      -(7378697629483821 / 73786976294838206464 - 1 / 16384) := by ring
  have h15 : (2 : ℝ) ^ (-15 : ℤ) = 1 / 32768 := by
    rw [zpow_neg, zpow_ofNat]; norm_num
  have h14 : (2 : ℝ) ^ ((-15 : ℤ) + 1) = 1 / 16384 := by
    have : ((-15 : ℤ) + 1) = -14 := by norm_num
    rw [this, zpow_neg, zpow_ofNat]; norm_num
  have hb := roundDouble_binade
    (x := (7378697629483821 / 73786976294838206464 - 1 / 16384 : ℝ)) (e := -15) (by norm_num)
    (by rw [h15]; norm_num) (by rw [h14]; norm_num)
  rw [h15, h14] at hb
  rw [e, roundDouble_neg]
  constructor <;> linarith [hb.1, hb.2]

/-- At the angle `2 ^ (-14)`, in the 2 x 2 world whose only walkable tile is
`(1, 0)`, from the origin `(1 + 2 ^ (-20), 15/16)` on that tile, the first
sub-step lands on the wall `(0, 1)`: both coordinates change. -/
theorem march_small (steps : ℕ) (hsteps : 1 ≤ steps) :
    worldCastRay.march (⟨Real.sin, Real.cos, Real.sqrt, Real.pi⟩ : Libm ℝ)
      ⟨['r', ' ', 'r', 'r'], 2, 2, 1⟩ ⟨1048577 / 1048576, 15 / 16⟩ steps (1 / 16384) =
      some (MarchEnd.hit 0 1 1 0 'r') := by
  have hs := Real.sin_gt_sub_cube (x := (1 / 16384 : ℝ)) (by norm_num) (by norm_num)
  have hs1 : (10 / 1048576 : ℝ) < Real.sin (1 / 16384) := by
    refine lt_trans ?_ hs
    norm_num
  have hs2 := Real.sin_le_one (1 / 16384 : ℝ)
  have hc := Real.one_sub_sq_div_two_le_cos (x := (1 / 16384 : ℝ))
  have hc1 : (9 / 10 : ℝ) ≤ Real.cos (1 / 16384) := by
    refine le_trans ?_ hc
    norm_num
  have hc2 := Real.cos_le_one (1 / 16384 : ℝ)
  have hx1 : sampleX (⟨['r', ' ', 'r', 'r'], 2, 2, 1⟩ : World ℝ) ⟨1048577 / 1048576, 15 / 16⟩
      (-Real.sin (1 / 16384) / 10) 1 = 0 := by
    unfold sampleX
    apply toInt_eq
    left
    simp only [Nat.cast_one, one_mul, div_one, Int.cast_zero, zero_add]
    generalize Real.sin (1 / 16384) = s at hs1 hs2 ⊢
    refine ⟨by linarith, by linarith, by linarith⟩
  have hy1 : sampleY (⟨['r', ' ', 'r', 'r'], 2, 2, 1⟩ : World ℝ) ⟨1048577 / 1048576, 15 / 16⟩
      (Real.cos (1 / 16384) / 10) 1 = 1 := by
    unfold sampleY
    apply toInt_eq
    left
    simp only [Nat.cast_one, one_mul, div_one, Int.cast_one]
    generalize Real.cos (1 / 16384) = c at hc1 hc2 ⊢
    refine ⟨by linarith, by linarith, by linarith⟩
  have hx0 : sampleX (⟨['r', ' ', 'r', 'r'], 2, 2, 1⟩ : World ℝ) ⟨1048577 / 1048576, 15 / 16⟩
      (-Real.sin (1 / 16384) / 10) 0 = 1 := by
    unfold sampleX
    exact toInt_eq (Or.inl (by norm_num))
  have hy0 : sampleY (⟨['r', ' ', 'r', 'r'], 2, 2, 1⟩ : World ℝ) ⟨1048577 / 1048576, 15 / 16⟩
      (Real.cos (1 / 16384) / 10) 0 = 0 := by
    unfold sampleY
    exact toInt_eq (Or.inl (by norm_num))
  have h := march_hit (⟨Real.sin, Real.cos, Real.sqrt, Real.pi⟩ : Libm ℝ)
    ⟨['r', ' ', 'r', 'r'], 2, 2, 1⟩ ⟨1048577 / 1048576, 15 / 16⟩ (1 / 16384) 1 steps
    (le_refl 1) hsteps
    (by intro j h1 h2; omega)
    (by simp only [hx1, hy1]; decide)
    (by simp only [hx1, hy1]; decide)
  simp only [hx1, hy1, Nat.sub_self, hx0, hy0] at h
  rw [h]
  rfl

/-- At the retried angle, the double `2 ^ (-14) - 0.0001`, the first sub-step
from the same origin lands on the wall `(1, 1)`: only the row changes. -/
theorem march_small_retry (steps : ℕ) (hsteps : 1 ≤ steps) :
    worldCastRay.march (⟨Real.sin, Real.cos, Real.sqrt, Real.pi⟩ : Libm ℝ)
      ⟨['r', ' ', 'r', 'r'], 2, 2, 1⟩ ⟨1048577 / 1048576, 15 / 16⟩ steps
      (worldCastRay.retry_angle (1 / 16384)) = some (MarchEnd.hit 1 1 1 0 'r') := by
  obtain ⟨hd1, hd2⟩ := retry_angle_small
  generalize worldCastRay.retry_angle (1 / 16384 : ℝ) = d at hd1 hd2 ⊢
  have hs1 : Real.sin d < 0 :=
    Real.sin_neg_of_neg_of_neg_pi_lt (by linarith) (by linarith [Real.pi_gt_three])
  have hs2 := Real.neg_one_le_sin d
  have hc := Real.one_sub_sq_div_two_le_cos (x := d)
  have hsq : d ^ 2 ≤ (1 / 16384 : ℝ) ^ 2 := by
    apply sq_le_sq' <;> linarith
  have hc1 : (9 / 10 : ℝ) ≤ Real.cos d := by
    refine le_trans ?_ hc
    norm_num at hsq ⊢
    linarith
  have hc2 := Real.cos_le_one d
  have hx1 : sampleX (⟨['r', ' ', 'r', 'r'], 2, 2, 1⟩ : World ℝ) ⟨1048577 / 1048576, 15 / 16⟩
      (-Real.sin d / 10) 1 = 1 := by
    unfold sampleX
    apply toInt_eq
    left
    simp only [Nat.cast_one, one_mul, div_one, Int.cast_one]
    generalize Real.sin d = s at hs1 hs2 ⊢
    refine ⟨by linarith, by linarith, by linarith⟩
  have hy1 : sampleY (⟨['r', ' ', 'r', 'r'], 2, 2, 1⟩ : World ℝ) ⟨1048577 / 1048576, 15 / 16⟩
      (Real.cos d / 10) 1 = 1 := by
    unfold sampleY
    apply toInt_eq
    left
    simp only [Nat.cast_one, one_mul, div_one, Int.cast_one]
    generalize Real.cos d = c at hc1 hc2 ⊢
    refine ⟨by linarith, by linarith, by linarith⟩
  have hx0 : sampleX (⟨['r', ' ', 'r', 'r'], 2, 2, 1⟩ : World ℝ) ⟨1048577 / 1048576, 15 / 16⟩
      (-Real.sin d / 10) 0 = 1 := by
    unfold sampleX
    exact toInt_eq (Or.inl (by norm_num))
  have hy0 : sampleY (⟨['r', ' ', 'r', 'r'], 2, 2, 1⟩ : World ℝ) ⟨1048577 / 1048576, 15 / 16⟩
      (Real.cos d / 10) 0 = 0 := by
    unfold sampleY
    exact toInt_eq (Or.inl (by norm_num))
  have h := march_hit (⟨Real.sin, Real.cos, Real.sqrt, Real.pi⟩ : Libm ℝ)
    ⟨['r', ' ', 'r', 'r'], 2, 2, 1⟩ ⟨1048577 / 1048576, 15 / 16⟩ d 1 steps
    (le_refl 1) hsteps
    (by intro j h1 h2; omega)
    (by simp only [hx1, hy1]; decide)
    (by simp only [hx1, hy1]; decide)
  simp only [hx1, hy1, Nat.sub_self, hx0, hy0] at h
  rw [h]
  rfl

/-- C8, amended, with the true sine and cosine.  From the origin
`(1 + 2 ^ (-20), 15/16)` the cast at the angle `2 ^ (-14)` crosses a tile
corner and the cast at the retried angle does not: one retry is needed and
suffices.  At the angle `10 ^ 13`, which absorbs the perturbation, the
ambiguous cast from `(63/64, 31/32)` exhausts every budget. -/
theorem worldCastRay_returns_when_resolved_witness :
    (worldCastRay (⟨Real.sin, Real.cos, Real.sqrt, Real.pi⟩ : Libm ℝ)
        ⟨['r', ' ', 'r', 'r'], 2, 2, 1⟩ ⟨1048577 / 1048576, 15 / 16⟩ 1 1 (1 / 16384) (1 / 16384) =
      worldCastRay (⟨Real.sin, Real.cos, Real.sqrt, Real.pi⟩ : Libm ℝ)
        ⟨['r', ' ', 'r', 'r'], 2, 2, 1⟩ ⟨1048577 / 1048576, 15 / 16⟩ 0 1
        (worldCastRay.retry_angle^[1] (1 / 16384)) (1 / 16384) ∧
     worldCastRay (⟨Real.sin, Real.cos, Real.sqrt, Real.pi⟩ : Libm ℝ)
        ⟨['r', ' ', 'r', 'r'], 2, 2, 1⟩ ⟨1048577 / 1048576, 15 / 16⟩ 1 1 (1 / 16384) (1 / 16384) ≠
      Cast.fuelOut) ∧
    worldCastRay (⟨Real.sin, Real.cos, Real.sqrt, Real.pi⟩ : Libm ℝ)
        ⟨['r', ' ', 'r', 'r'], 2, 2, 1⟩ ⟨1048577 / 1048576, 15 / 16⟩ 0 1 (1 / 16384) (1 / 16384) =
      Cast.fuelOut ∧
    (∀ budget : ℕ,
      worldCastRay (⟨Real.sin, Real.cos, Real.sqrt, Real.pi⟩ : Libm ℝ)
        ⟨[' ', 'r', 'r', 'r'], 2, 2, 1⟩ ⟨63 / 64, 31 / 32⟩ budget 1 (10 ^ 13) (10 ^ 13) =
        Cast.fuelOut) := by
  have hamb : ∀ j : ℕ, j < 1 → worldCastRay.ambiguous
      (⟨Real.sin, Real.cos, Real.sqrt, Real.pi⟩ : Libm ℝ)
      ⟨['r', ' ', 'r', 'r'], 2, 2, 1⟩ ⟨1048577 / 1048576, 15 / 16⟩ 1
      (worldCastRay.retry_angle^[j] (1 / 16384)) := by
    intro j hj
    have : j = 0 := by omega
    subst this
    unfold worldCastRay.ambiguous
    rw [Function.iterate_zero, id_eq, march_small 1 (le_refl 1)]
    decide
  have hres : ¬ worldCastRay.ambiguous
      (⟨Real.sin, Real.cos, Real.sqrt, Real.pi⟩ : Libm ℝ)
      ⟨['r', ' ', 'r', 'r'], 2, 2, 1⟩ ⟨1048577 / 1048576, 15 / 16⟩ 1
      (worldCastRay.retry_angle^[1] (1 / 16384)) := by
    unfold worldCastRay.ambiguous
    rw [Function.iterate_one, march_small_retry 1 (le_refl 1)]
    decide
  have hend : worldCastRay.march
      (⟨Real.sin, Real.cos, Real.sqrt, Real.pi⟩ : Libm ℝ)
      ⟨['r', ' ', 'r', 'r'], 2, 2, 1⟩ ⟨1048577 / 1048576, 15 / 16⟩ 1
      (worldCastRay.retry_angle^[1] (1 / 16384)) ≠ none := by
    rw [Function.iterate_one, march_small_retry 1 (le_refl 1)]
    exact Option.some_ne_none _
  have hbig : worldCastRay.ambiguous (⟨Real.sin, Real.cos, Real.sqrt, Real.pi⟩ : Libm ℝ)
      ⟨[' ', 'r', 'r', 'r'], 2, 2, 1⟩ ⟨63 / 64, 31 / 32⟩ 1 (10 ^ 13) := by
    unfold worldCastRay.ambiguous
    rw [march_big 1 (le_refl 1)]
    decide
  exact ⟨((worldCastRay_returns_when_resolved _ _ _ 1 1 1 (1 / 16384) (1 / 16384)).1
      hamb hres hend).1 (le_refl 1),
    ((worldCastRay_returns_when_resolved _ _ _ 1 1 0 (1 / 16384) (1 / 16384)).1
      hamb hres hend).2 (by decide),
    (worldCastRay_returns_when_resolved _ _ _ 1 0 0 (10 ^ 13) (10 ^ 13)).2 hbig retry_angle_big⟩

/-! ## C11: the side of a hit is defined -/

/-- An invariant of the march loop: started on a walkable tile, when it
leaves on a tile, that tile is a non-walkable tile of the grid, `curr` is its
character, and the previous tile is walkable. -/
theorem marchLoop_hit_inv (world : World K) (position : Position K) (dx dy : K) (fuel : ℕ) :
    ∀ (march_x march_y : K) (map_x map_y mx my px py : ℤ) (c : Char),
      walkable (world.tile map_x map_y) →
      marchLoop world position dx dy fuel march_x march_y map_x map_y =
        some (MarchEnd.hit mx my px py c) →
      walkable (world.tile px py) ∧ world.inGrid mx my ∧ c = world.tile mx my ∧
        ¬ walkable (world.tile mx my) := by
  induction fuel with
  | zero =>
    intro march_x march_y map_x map_y mx my px py c _ h
    simp [marchLoop] at h
  | succ fuel ih =>
    intro march_x march_y map_x map_y mx my px py c hw h
    rw [marchLoop_succ] at h
    split_ifs at h with hin hwalk
    · exact ih _ _ _ _ mx my px py c hwalk h
    · simp only [Option.some.injEq, MarchEnd.hit.injEq] at h
      obtain ⟨e1, e2, e3, e4, e5⟩ := h
      subst e1 e2 e3 e4
      exact ⟨hw, hin, e5.symm, hwalk⟩
    · simp at h

/-- From an origin on a walkable tile, the tile on which the march ends
differs from the previous tile, and `getSideHit` returns a side for the two
whenever they do not differ in both coordinates. -/
theorem march_hit_side (L : Libm K) (world : World K) (position : Position K) (steps : ℕ)
    (θ : K) (mx my px py : ℤ) (c : Char)
    (horigin : walkable (world.tile (toInt (position.x / world.scale))
      (toInt (position.y / world.scale))))
    (h : worldCastRay.march L world position steps θ = some (MarchEnd.hit mx my px py c)) :
    (mx ≠ px ∨ my ≠ py) ∧
    (¬ (mx ≠ px ∧ my ≠ py) →
      ((mx ≠ px ∧ my = py) ∨ (mx = px ∧ my ≠ py)) ∧
      ∃ side : Side, getSideHit mx my px py = some side) := by
  unfold worldCastRay.march at h
  obtain ⟨hp, -, -, hm⟩ := marchLoop_hit_inv world position _ _ steps _ _ _ _ mx my px py c horigin h
  have hne : mx ≠ px ∨ my ≠ py := by
    by_contra hcon
    push_neg at hcon
    rw [hcon.1, hcon.2] at hm
    exact hm hp
  refine ⟨hne, fun hnot => ⟨by omega, ?_⟩⟩
  unfold getSideHit
  split_ifs
  · exact ⟨_, rfl⟩
  · exact ⟨_, rfl⟩
  · exact ⟨_, rfl⟩
  · exact ⟨_, rfl⟩
  · exfalso; omega

/-- C11: for every world and every origin on a walkable tile (empty or start
marker; in particular an in-bounds one), whenever the march loop of
`worldCastRay` ends on a non-empty tile, that tile differs from the tile of
the previous sub-step in at least one coordinate; when the cast does not
retry, exactly one coordinate differs and `getSideHit` returns one of the four
sides; so no call of `worldCastRay`, whatever its budgets, uses the missing
return value of `getSideHit`. -/
theorem side_defined_from_walkable_origin (L : Libm K) (world : World K)
    (position : Position K) (steps : ℕ)
    (horigin : walkable (world.tile (toInt (position.x / world.scale))
      (toInt (position.y / world.scale)))) :
    (∀ (θ : K) (mx my px py : ℤ) (c : Char),
      worldCastRay.march L world position steps θ = some (MarchEnd.hit mx my px py c) →
      (mx ≠ px ∨ my ≠ py) ∧
      (¬ (mx ≠ px ∧ my ≠ py) →
        ((mx ≠ px ∧ my = py) ∨ (mx = px ∧ my ≠ py)) ∧
        (getSideHit mx my px py = some Side.WEST ∨ getSideHit mx my px py = some Side.EAST ∨
          getSideHit mx my px py = some Side.NORTH ∨
          getSideHit mx my px py = some Side.SOUTH))) ∧
    (∀ (retries : ℕ) (θ φ : K),
      worldCastRay L world position retries steps θ φ ≠ Cast.undefinedSide) := by
  constructor
  · intro θ mx my px py c h
    obtain ⟨h1, h2⟩ := march_hit_side L world position steps θ mx my px py c horigin h
    refine ⟨h1, fun hnot => ⟨(h2 hnot).1, ?_⟩⟩
    obtain ⟨side, hs⟩ := (h2 hnot).2
    rw [hs]
    cases side <;> simp
  · intro retries
    induction retries with
    | zero =>
      intro θ φ
      cases hm : worldCastRay.march L world position steps θ with
      | none => rw [worldCastRay_of_none L world position 0 steps θ φ hm]; simp
      | some e =>
        cases e with
        | outOfBounds => rw [worldCastRay_of_outOfBounds L world position 0 steps θ φ hm]; simp
        | hit mx my px py c =>
          by_cases hamb : mx ≠ px ∧ my ≠ py
          · have ha : worldCastRay.ambiguous L world position steps θ := by
              unfold worldCastRay.ambiguous
              rw [hm]
              exact hamb
            rw [worldCastRay_of_ambiguous_zero L world position steps θ φ ha]
            simp
          · obtain ⟨side, hs⟩ :=
              ((march_hit_side L world position steps θ mx my px py c horigin hm).2 hamb).2
            rw [worldCastRay_of_hit L world position 0 steps θ φ mx my px py c side hm hamb hs]
            simp
    | succ r ih =>
      intro θ φ
      cases hm : worldCastRay.march L world position steps θ with
      | none => rw [worldCastRay_of_none L world position (r + 1) steps θ φ hm]; simp
      | some e =>
        cases e with
        | outOfBounds =>
          rw [worldCastRay_of_outOfBounds L world position (r + 1) steps θ φ hm]; simp
        | hit mx my px py c =>
          by_cases hamb : mx ≠ px ∧ my ≠ py
          · have ha : worldCastRay.ambiguous L world position steps θ := by
              unfold worldCastRay.ambiguous
              rw [hm]
              exact hamb
            rw [worldCastRay_of_ambiguous_succ L world position r steps θ φ ha]
            exact ih _ φ
          · obtain ⟨side, hs⟩ :=
              ((march_hit_side L world position steps θ mx my px py c horigin hm).2 hamb).2
            rw [worldCastRay_of_hit L world position (r + 1) steps θ φ mx my px py c side hm
              hamb hs]
            simp

/-- C11 at a tile corner: in the 2 x 2 world whose only walkable tile is
`(0, 0)`, from the origin `(0.99, 0.92813)` on that tile, no cast uses a
missing side, and a march that ends on the wall `(1, 0)` coming from `(0, 0)`
has the side WEST. -/
theorem side_defined_from_walkable_origin_witness :
    ((⟨[' ', 'r', 'r', 'r'], 2, 2, 1⟩ : World ℚ).inGrid
        (toInt ((99 / 100 : ℚ) / 1)) (toInt ((92813 / 100000 : ℚ) / 1)) ∧
      walkable ((⟨[' ', 'r', 'r', 'r'], 2, 2, 1⟩ : World ℚ).tile
        (toInt ((99 / 100 : ℚ) / 1)) (toInt ((92813 / 100000 : ℚ) / 1)))) ∧
    (∀ (retries : ℕ) (θ φ : ℚ),
      worldCastRay (⟨fun a => a - a ^ 3 / 6, fun a => 1 - a ^ 2 / 2, fun a => a, 22 / 7⟩ : Libm ℚ)
        ⟨[' ', 'r', 'r', 'r'], 2, 2, 1⟩ ⟨99 / 100, 92813 / 100000⟩ retries 1 θ φ ≠
      Cast.undefinedSide) ∧
    getSideHit 1 0 0 0 = some Side.WEST := by
  have ex : toInt ((99 / 100 : ℚ) / 1) = 0 := toInt_eq (Or.inl (by norm_num))
  have ey : toInt ((92813 / 100000 : ℚ) / 1) = 0 := toInt_eq (Or.inl (by norm_num))
  have horigin : walkable ((⟨[' ', 'r', 'r', 'r'], 2, 2, 1⟩ : World ℚ).tile
      (toInt ((99 / 100 : ℚ) / 1)) (toInt ((92813 / 100000 : ℚ) / 1))) := by
    rw [ex, ey]
    decide
  refine ⟨⟨?_, horigin⟩, ?_, by decide⟩
  · rw [ex, ey]
    decide
  · exact (side_defined_from_walkable_origin
      (⟨fun a => a - a ^ 3 / 6, fun a => 1 - a ^ 2 / 2, fun a => a, 22 / 7⟩ : Libm ℚ)
      ⟨[' ', 'r', 'r', 'r'], 2, 2, 1⟩ ⟨99 / 100, 92813 / 100000⟩ 1 horigin).2

/-- The precondition of C11 is needed: from an origin on a wall tile, the
first sub-step stays on that tile, the march ends there, and `worldCastRay`
uses the value of `getSideHit` where it returns nothing. -/
theorem side_undefined_from_wall_origin :
    ∀ retries : ℕ,
      worldCastRay (⟨fun a => a - a ^ 3 / 6, fun a => 1 - a ^ 2 / 2, fun a => a, 22 / 7⟩ : Libm ℚ)
        ⟨['r'], 1, 1, 10⟩ ⟨5, 5⟩ retries 1 0 0 = Cast.undefinedSide := by
  intro retries
  have hx : ∀ j : ℕ, j ≤ 1 → sampleX (⟨['r'], 1, 1, 10⟩ : World ℚ) ⟨5, 5⟩
      (-((0 : ℚ) - (0 : ℚ) ^ 3 / 6) / 10) j = 0 := by
    intro j _
    unfold sampleX
    exact toInt_eq (Or.inl (by norm_num))
  have hy : ∀ j : ℕ, j ≤ 1 → sampleY (⟨['r'], 1, 1, 10⟩ : World ℚ) ⟨5, 5⟩
      ((1 - (0 : ℚ) ^ 2 / 2) / 10) j = 0 := by
    intro j hj
    unfold sampleY
    have hj' : (j : ℚ) ≤ 1 := by exact_mod_cast hj
    have hj0 : (0 : ℚ) ≤ (j : ℚ) := Nat.cast_nonneg j
    apply toInt_eq
    left
    simp only []
    refine ⟨?_, ?_, ?_⟩
    · apply div_nonneg _ (by norm_num)
      nlinarith
    · apply div_nonneg _ (by norm_num)
      nlinarith
    · rw [div_lt_iff₀ (by norm_num)]
      push_cast
      nlinarith
  have h := march_hit
    (⟨fun a => a - a ^ 3 / 6, fun a => 1 - a ^ 2 / 2, fun a => a, 22 / 7⟩ : Libm ℚ)
    ⟨['r'], 1, 1, 10⟩ ⟨5, 5⟩ 0 1 1 (le_refl 1) (le_refl 1)
    (by intro j h1 h2; omega)
    (by simp only [hx 1 (le_refl 1), hy 1 (le_refl 1)]; decide)
    (by simp only [hx 1 (le_refl 1), hy 1 (le_refl 1)]; decide)
  simp only [hx 1 (le_refl 1), hy 1 (le_refl 1), Nat.sub_self, hx 0 (by omega),
    hy 0 (by omega)] at h
  rw [worldCastRay.eq_def]
  unfold worldCastRay.march at h
  simp only [h]
  rfl

/-! ## C2, amended: the depth from the tile on which the march stops -/

end Zoom
